import Mathlib

set_option maxHeartbeats 1000000
set_option maxRecDepth 4000

/-!
Verification of the Reversi board engine and playout search from `src/main.rs`
(`NickChubb/ReversiMCTS`).  The Rust code is shallowly embedded: the `Board`
struct becomes a Lean structure, `IndexSet` becomes an insertion-ordered
duplicate-free `List Nat` (`insert` appends a missing element, `remove` is
indexmap's swap-remove), mutation becomes explicit state passing, and the
unbounded `loop`s of the source become fuel recursion (fuel 64 is beyond any
possible number of iterations of those loops on a 64-cell board).  Randomness
(`rand::thread_rng`) is modelled by an arbitrary oracle function supplying the
index choices, and the wall-clock budget of the search by the number of outer
rounds actually completed.  `debug` parameters and printing are dropped.
-/

/-- Embeds the `Board` struct: cell values are 0 (empty), 1 (player), 2 (CPU). -/
structure Board where
  width : Nat
  height : Nat
  board_size : Nat
  board : List Nat
  perimeter : List Nat
  player_available_actions : List Nat
  cpu_available_actions : List Nat
  player_turn : Bool
deriving DecidableEq, Repr

/-- `IndexSet::insert`: appends the element at the end if it is not present. -/
def insertSet (l : List Nat) (x : Nat) : List Nat :=
  if l.contains x then l else l ++ [x]

/-- `IndexSet::remove` of indexmap 1.5, i.e. swap-remove: the removed slot is
filled with the last element and the list shrinks by one. -/
def swapRemove (l : List Nat) (x : Nat) : List Nat :=
  if l.contains x then (l.dropLast).set (l.indexOf x) (l.getLastD 0) else l

/-- Embeds `get_new_pos` (src/main.rs:491-585): one step of length `iter` from
`pos` in direction `dir` (0 right, 1 left, 2 down, 3 up, 4 up-left, 5 up-right,
6 down-left, 7 down-right), `none` on leaving the board. -/
def get_new_pos (dir pos iter size : Nat) : Option Nat :=
  match dir with
  | 0 =>
    if (pos + iter) % 8 = 0 then none else some (pos + iter)
  | 1 =>
    if pos < iter then none
    else if (pos - iter) % 8 = 7 then none else some (pos - iter)
  | 2 =>
    if pos + iter * 8 < size then some (pos + iter * 8) else none
  | 3 =>
    if pos < iter * 8 then none else some (pos - iter * 8)
  | 4 =>
    if pos < iter * 8 + iter then none
    else if (pos - (iter * 8 + iter)) % 8 ≠ 7 then some (pos - (iter * 8 + iter)) else none
  | 5 =>
    if pos < iter * 8 - iter then none
    else if (pos - (iter * 8 - iter)) % 8 ≠ 0 then some (pos - (iter * 8 - iter)) else none
  | 6 =>
    if pos + iter * 8 - iter < size ∧ (pos + iter * 8 - iter) % 8 ≠ 7 then
      some (pos + iter * 8 - iter)
    else none
  | 7 =>
    if pos + iter * 8 + iter < size ∧ (pos + iter * 8 + iter) % 8 ≠ 0 then
      some (pos + iter * 8 + iter)
    else none
  | _ => none

/-- Embeds `Board::new` (src/main.rs:55-101). -/
def Board.new (w h : Nat) : Board :=
  let size := w * h
  let new_board := ((((List.replicate size 0).set 28 1).set 35 1).set 27 2).set 36 2
  { width := w
    height := h
    board_size := size
    board := new_board
    perimeter := [18, 19, 20, 21, 26, 29, 34, 37, 42, 43, 44, 45]
    player_available_actions := [26, 19, 37, 44]
    cpu_available_actions := [29, 20, 34, 43]
    player_turn := true }

/-- Embeds `Board::clone` (src/main.rs:106-120). -/
def Board.clone (b : Board) : Board :=
  { width := b.width
    height := b.height
    board_size := b.board_size
    board := b.board
    perimeter := b.perimeter
    player_available_actions := b.player_available_actions
    cpu_available_actions := b.cpu_available_actions
    player_turn := b.player_turn }

/-- Embeds `Board::get_player_actions`. -/
def get_player_actions (b : Board) : List Nat :=
  b.player_available_actions

/-- Embeds `Board::get_cpu_actions`. -/
def get_cpu_actions (b : Board) : List Nat :=
  b.cpu_available_actions

/-- Embeds `Board::get_available_actions`: the moving side's action set. -/
def get_available_actions (b : Board) : List Nat :=
  if b.player_turn then get_player_actions b else get_cpu_actions b

/-- Embeds `Board::get_perimeter`. -/
def get_perimeter (b : Board) : List Nat :=
  b.perimeter

/-- Embeds `Board::get_score` (src/main.rs:455-469): the loop over `0..64`
counting player and CPU cells. -/
def get_score (b : Board) : Nat × Nat :=
  ((List.range 64).countP (fun i => b.board.getD i 0 == 1),
   (List.range 64).countP (fun i => b.board.getD i 0 == 2))

/-- Embeds `Board::check_game_state` (src/main.rs:426-450): 0 in progress,
1 player win, 2 CPU win, 3 draw. -/
def check_game_state (b : Board) : Nat :=
  let player_actions := get_player_actions b
  let cpu_actions := get_cpu_actions b
  if cpu_actions.length = 0 ∨ player_actions.length = 0 then
    let s := get_score b
    if s.2 < s.1 then 1
    else if s.1 < s.2 then 2
    else 3
  else 0

/-- Embeds `Board::add` (src/main.rs:478-481): write `val` at `pos`. -/
def Board.add (b : Board) (pos val : Nat) : Board :=
  { b with board := b.board.set pos val }

/-- The `for t in &tiles { self.add(*t, val) }` flush inside `Board::ins`. -/
def flip_span (brd : List Nat) (tiles : List Nat) (val : Nat) : List Nat :=
  tiles.foldl (fun bb t => bb.set t val) brd

/-- The inner `loop` of `Board::ins` (src/main.rs:197-222) for one direction:
collect a run of opponent tiles, flush it whenever a mover-colored tile is
met (the source does not stop or clear after a flush), stop on an empty tile
or the board edge. -/
def flip_dir (brd : List Nat) (pos val dir size u : Nat) (tiles : List Nat) : Nat → List Nat
  | 0 => brd
  | Nat.succ fuel =>
    match get_new_pos dir pos u size with
    | none => brd
    | some new_pos =>
      let tile := brd.getD new_pos 0
      if tile ≠ val ∧ tile ≠ 0 then
        flip_dir brd pos val dir size (u + 1) (tiles ++ [new_pos]) fuel
      else if tile = val then
        flip_dir (flip_span brd tiles val) pos val dir size (u + 1) tiles fuel
      else brd

/-- The inner `loop` of `Board::check_tile_actions` (src/main.rs:329-376) for
one direction.  `some true`: a sandwich was found (insert and return);
`some false`: the final `else` was hit (remove and break); `none`: the scan
left the board without deciding. -/
def check_tile_dir (brd : List Nat) (pos val dir size u : Nat) (has_tiles : Bool) :
    Nat → Option Bool
  | 0 => none
  | Nat.succ fuel =>
    match get_new_pos dir pos u size with
    | none => none
    | some new_pos =>
      let tile := brd.getD new_pos 0
      if tile ≠ val ∧ tile ≠ 0 then
        check_tile_dir brd pos val dir size (u + 1) true fuel
      else if tile = val ∧ has_tiles = true then some true
      else some false

/-- The `self.player_available_actions.remove(&pos)` / cpu branch of
`Board::check_tile_actions`. -/
def Board.remove_action (b : Board) (pos val : Nat) : Board :=
  if val = 1 then
    { b with player_available_actions := swapRemove b.player_available_actions pos }
  else
    { b with cpu_available_actions := swapRemove b.cpu_available_actions pos }

/-- The insert branch of `Board::check_tile_actions`. -/
def Board.insert_action (b : Board) (pos val : Nat) : Board :=
  if val = 1 then
    { b with player_available_actions := insertSet b.player_available_actions pos }
  else
    { b with cpu_available_actions := insertSet b.cpu_available_actions pos }

/-- The direction loop of `Board::check_tile_actions`: an insert returns
immediately, the `else` branch removes and proceeds to the next direction. -/
def Board.check_tile_go (b : Board) (pos val : Nat) : List Nat → Board
  | [] => b
  | dir :: rest =>
    match check_tile_dir b.board pos val dir b.board_size 1 false 64 with
    | some true => b.insert_action pos val
    | some false => (b.remove_action pos val).check_tile_go pos val rest
    | none => b.check_tile_go pos val rest

/-- Embeds `Board::check_tile_actions` (src/main.rs:318-378). -/
def Board.check_tile_actions (b : Board) (pos val : Nat) : Board :=
  b.check_tile_go pos val (List.range 8)

/-- The placement and eight-direction flip scan of `Board::ins`
(src/main.rs:179-223): write `val` at `pos`, then run the per-direction scan
over directions 0 through 7 on the evolving board. -/
def ins_flips (brd : List Nat) (pos val size : Nat) : List Nat :=
  (List.range 8).foldl
    (fun bb dir => flip_dir bb pos val dir size 1 [] 64)
    (brd.set pos val)

/-- The "Update perimeter above" loop of `Board::ins` (src/main.rs:230-239):
for `i` in 0..3 insert `pos - (9 - i)` when it does not underflow and is
empty; the row overflow the source leaves unhandled is reproduced. -/
def ins_perimeter_above (brd1 p : List Nat) (pos : Nat) : List Nat :=
  (List.range 3).foldl
    (fun q i =>
      if pos < 9 - i then q
      else if brd1.getD (pos - (9 - i)) 0 = 0 then insertSet q (pos - (9 - i)) else q)
    p

/-- The "Update perimeter to the left" step of `Board::ins`
(src/main.rs:242-255). -/
def ins_perimeter_left (brd1 p : List Nat) (pos : Nat) : List Nat :=
  if pos = 0 then p
  else if brd1.getD (pos - 1) 0 = 0 then insertSet p (pos - 1) else p

/-- The "Update perimeter to the right" step of `Board::ins`
(src/main.rs:258-271). -/
def ins_perimeter_right (brd1 p : List Nat) (pos size : Nat) : List Nat :=
  if pos + 1 < size then
    if brd1.getD (pos + 1) 0 = 0 then insertSet p (pos + 1) else p
  else p

/-- The "Update perimeter below" loop of `Board::ins` (src/main.rs:274-282):
for `i` in 0..3 insert `pos + 9 - i` when it is below `size` and empty. -/
def ins_perimeter_below (brd1 p : List Nat) (pos size : Nat) : List Nat :=
  (List.range 3).foldl
    (fun q i =>
      if pos + 9 - i < size then
        if brd1.getD (pos + 9 - i) 0 = 0 then insertSet q (pos + 9 - i) else q
      else q)
    p

/-- The perimeter update of `Board::ins` (src/main.rs:225-282): remove `pos`,
then run the above, left, right and below insertions in source order. -/
def ins_perimeter (brd1 per : List Nat) (pos size : Nat) : List Nat :=
  ins_perimeter_below brd1
    (ins_perimeter_right brd1
      (ins_perimeter_left brd1
        (ins_perimeter_above brd1 (swapRemove per pos) pos) pos) pos size) pos size

/-- One pass of the `for tile in self.get_perimeter()` loop of `Board::ins`
(src/main.rs:293-296) for a fixed player `val`. -/
def cta_pass (b : Board) (val : Nat) : Board :=
  b.perimeter.foldl (fun bb tile => bb.check_tile_actions tile val) b

/-- The action-set recomputation of `Board::ins` (src/main.rs:290-297): run
`check_tile_actions` on every perimeter tile for player 1, then for player 2. -/
def ins_actions (b : Board) : Board :=
  cta_pass (cta_pass b 1) 2

/-- Embeds `Board::ins` (src/main.rs:168-312): legality guard, placement,
eight-direction flip scan, perimeter update, removal of `pos` from both
action sets, action-set recomputation over the perimeter for both players,
and the turn toggle. -/
def Board.ins (b : Board) (pos val : Nat) : Board :=
  match (get_available_actions b).contains pos with
  | false => b
  | true =>
    let brd1 := ins_flips b.board pos val b.board_size
    let b1 : Board :=
      { b with
        board := brd1
        perimeter := ins_perimeter brd1 b.perimeter pos b.board_size
        player_available_actions := swapRemove b.player_available_actions pos
        cpu_available_actions := swapRemove b.cpu_available_actions pos }
    let b2 := ins_actions b1
    { b2 with player_turn := ! b2.player_turn }

/-- Embeds `get_max_tile` (src/main.rs:838-865).  Note: `best_score` is the
CPU score of the current board and is never updated inside the loop, exactly
as in the source. -/
def get_max_tile (b : Board) : Nat :=
  let actions := get_available_actions b
  let best_score := (get_score b).2
  if actions.length = 0 then 99
  else
    actions.foldl
      (fun best_pos action =>
        let new_board := (Board.clone b).ins action 2
        if best_score < (get_score new_board).2 then action else best_pos)
      0

/-- Embeds `random_playout` (src/main.rs:783-831).  `rng` supplies the random
index choices (any run of the Rust RNG corresponds to some `rng`), `fuel`
bounds the unbounded `loop` (0 is returned on exhaustion; the source never
returns 0). The `action` argument is carried but, as in the source, never
applied to the board. -/
def random_playout (b : Board) (action : Nat) (diff : String) (rng : Nat → Nat) :
    Nat → Nat
  | 0 => 0
  | Nat.succ fuel =>
    match check_game_state b with
    | 0 =>
      if b.player_turn = false then
        match diff with
        | "1" =>
          let actions := get_cpu_actions b
          let rand_index := rng fuel % actions.length
          let rand_val := actions.getD rand_index 0
          random_playout (b.ins rand_val 2) action diff rng fuel
        | "2" =>
          let new_val := get_max_tile b
          if new_val = 99 then random_playout b action diff rng fuel
          else random_playout (b.ins new_val 2) action diff rng fuel
        | _ => random_playout b action diff rng fuel
      else
        let actions := get_player_actions b
        let rand_index := rng fuel % actions.length
        let rand_val := actions.getD rand_index 0
        random_playout (b.ins rand_val 1) action diff rng fuel
    | 1 => 1
    | 2 => 2
    | 3 => 3
    | _ => 42

/-- The frequency `HashMap` built from the win list in
`monte_carlo_tree_search`, as an association list in first-occurrence order. -/
def bumpCount : List (Nat × Nat) → Nat → List (Nat × Nat)
  | [], x => [(x, 1)]
  | (k, v) :: rest, x => if k = x then (k, v + 1) :: rest else (k, v) :: bumpCount rest x

/-- Builds the frequency table of a list. -/
def freqList (l : List Nat) : List (Nat × Nat) :=
  l.foldl bumpCount []

/-- `Iterator::max_by` on the entry list: the last entry with maximal count. -/
def maxByLast (l : List (Nat × Nat)) : Option (Nat × Nat) :=
  l.foldl
    (fun acc p =>
      match acc with
      | none => some p
      | some q => if q.2 ≤ p.2 then some p else some q)
    none

/-- The `match random_playout(..)` recording step of `monte_carlo_tree_search`
(src/main.rs:733-738): the playout outcome pushes the action onto the CPU-win
list (`stats[0]`, here the first component), the player-win list or the draw
list. -/
def mcts_record (b : Board) (diff : String) (rngi : Nat → Nat → Nat) (fuel : Nat)
    (st : List Nat × List Nat × List Nat) (act : Nat) : List Nat × List Nat × List Nat :=
  match random_playout (Board.clone b) act diff (rngi act) fuel with
  | 1 => (st.1, st.2.1 ++ [act], st.2.2)
  | 2 => (st.1 ++ [act], st.2.1, st.2.2)
  | 3 => (st.1, st.2.1, st.2.2 ++ [act])
  | _ => st

/-- The statistics loops of `monte_carlo_tree_search` (src/main.rs:713-740):
for each completed outer round, one playout per available action. -/
def mcts_stats (b : Board) (max_steps : Nat) (diff : String)
    (rngs : Nat → Nat → Nat → Nat) (fuel : Nat) : List Nat × List Nat × List Nat :=
  (List.range max_steps).foldl
    (fun st i => (get_available_actions b).foldl (mcts_record b diff (rngs i) fuel) st)
    ([], [], [])

/-- Embeds `monte_carlo_tree_search` (src/main.rs:706-775).  `max_steps` is
the number of outer rounds actually completed (the wall-clock break only cuts
this number short), `rngs` supplies a random stream per (round, action)
playout, `frand` the random index of the no-win fallback, and `fuel` the
playout bound. -/
def monte_carlo_tree_search (b : Board) (max_steps : Nat) (diff : String)
    (rngs : Nat → Nat → Nat → Nat) (frand : Nat) (fuel : Nat) : Nat :=
  let stats := mcts_stats b max_steps diff rngs fuel
  if stats.1.length = 0 then
    let actions := get_available_actions b
    let rand_index := frand % actions.length
    actions.getD rand_index 0
  else
    ((maxByLast (freqList stats.1)).getD (0, 0)).1

/-! Specification-side definitions: the grid geometry the spec's sentences
quantify over, the well-formedness invariant of engine-produced boards, and
reachability by successful moves. -/

/-- Row of a cell index in the row-major 8-wide layout. -/
def rowOf (i : Nat) : Nat := i / 8

/-- Column of a cell index. -/
def colOf (i : Nat) : Nat := i % 8

/-- True 8-direction grid adjacency of two cell indices: both on the board,
distinct, row and column each differing by at most one (no wrap across row
boundaries). -/
def adjacent8 (a c : Nat) : Bool :=
  decide (a < 64) && decide (c < 64) && decide (a ≠ c) &&
  decide ((rowOf a - rowOf c) + (rowOf c - rowOf a) ≤ 1) &&
  decide ((colOf a - colOf c) + (colOf c - colOf a) ≤ 1)

/-- Orthogonal (edge) adjacency: adjacent and sharing a row or a column. -/
def edgeAdjacent (a c : Nat) : Bool :=
  adjacent8 a c && (decide (rowOf a = rowOf c) || decide (colOf a = colOf c))

/-- Strictly diagonal adjacency: adjacent, in different rows and columns. -/
def diagAdjacent (a c : Nat) : Bool :=
  adjacent8 a c && decide (rowOf a ≠ rowOf c) && decide (colOf a ≠ colOf c)

/-- The central 2x2 block of starting pieces on the 8x8 board. -/
def centralBlock : List Nat := [27, 28, 35, 36]

/-- Whether cell `c` has at least one occupied true neighbor on board `b`. -/
def hasOccupiedNeighbor (b : Board) (c : Nat) : Bool :=
  (List.range 64).any (fun n => adjacent8 c n && !(b.board.getD n 0 == 0))

/-- Well-formedness of an engine board: 64 cells with values at most 2,
duplicate-free index sets whose members are empty on-board cells. -/
def WF (b : Board) : Prop :=
  b.board.length = 64 ∧ b.board_size = 64 ∧
  (∀ i < 64, b.board.getD i 0 ≤ 2) ∧
  b.player_available_actions.Nodup ∧
  b.cpu_available_actions.Nodup ∧
  b.perimeter.Nodup ∧
  (∀ m ∈ b.player_available_actions, m < 64 ∧ b.board.getD m 0 = 0) ∧
  (∀ m ∈ b.cpu_available_actions, m < 64 ∧ b.board.getD m 0 = 0) ∧
  (∀ m ∈ b.perimeter, m < 64 ∧ b.board.getD m 0 = 0)

instance (b : Board) : Decidable (WF b) := by
  unfold WF; infer_instance

/-- Boards reachable from the initial board by successful moves: each move is
taken from the moving side's available-action set with that side's color. -/
inductive Reachable : Board → Prop
  | init : Reachable (Board.new 8 8)
  | step {b : Board} {pos : Nat} (hr : Reachable b)
      (hm : pos ∈ get_available_actions b) :
      Reachable (b.ins pos (if b.player_turn then 1 else 2))

/-- Applies a list of moves, each for the side to move, failing on an illegal
move. -/
def playMoves (b : Board) : List Nat → Option Board
  | [] => some b
  | m :: ms =>
    if m ∈ get_available_actions b then
      playMoves (b.ins m (if b.player_turn then 1 else 2)) ms
    else none

/-- Number of occupied cells among the 64 board cells. -/
def occupiedCount (b : Board) : Nat :=
  (List.range 64).countP (fun i => !(b.board.getD i 0 == 0))

/-- Failing input for the flip scan: the east row from cell 0 reads
opponent (1), mover (2), opponent (1), mover (2), and cell 0 is a legal CPU
move. -/
def C1board : Board :=
  { width := 8, height := 8, board_size := 64,
    board := 0 :: 1 :: 2 :: 1 :: 2 :: List.replicate 59 0,
    perimeter := [], player_available_actions := [],
    cpu_available_actions := [0], player_turn := false }

/-- Failing input for `get_max_tile`: CPU action 0 flips three player pieces,
CPU action 40 flips one, and 0 precedes 40 in iteration order. -/
def C3board : Board :=
  { width := 8, height := 8, board_size := 64,
    board := (((((List.replicate 64 0).set 1 1).set 2 1).set 3 1).set 4 2 |>.set 41 1)
      |>.set 42 2,
    perimeter := [], player_available_actions := [],
    cpu_available_actions := [0, 40], player_turn := false }

/-- A successful seven-move game from the initial board ending with the
player's legal move at cell 39 (row 4, column 7). -/
def C4moves : List Nat := [37, 29, 22, 46, 38, 30, 39]

/-- The board reached by `C4moves` (checked against `playMoves` below): the
move at cell 39 inserted the column-0 cells 32, 40 and 48 into the perimeter
through the unhandled row wrap of the perimeter update. -/
def C4board : Board :=
  { width := 8, height := 8, board_size := 64,
    board := [0, 0, 0, 0, 0, 0, 0, 0, 0, 0, 0, 0, 0, 0, 0, 0,
              0, 0, 0, 0, 0, 0, 1, 0, 0, 0, 0, 2, 2, 2, 2, 0,
              0, 0, 0, 1, 1, 1, 1, 1, 0, 0, 0, 0, 0, 0, 2, 0,
              0, 0, 0, 0, 0, 0, 0, 0, 0, 0, 0, 0, 0, 0, 0, 0],
    perimeter := [18, 19, 20, 21, 26, 31, 34, 45, 42, 43, 44, 54, 53, 13, 14, 15,
                  23, 55, 47, 32, 40, 48],
    player_available_actions := [23, 19, 20, 53, 18, 21, 54, 55],
    cpu_available_actions := [42, 14, 45, 44, 43, 15, 47],
    player_turn := false }

/-! Theorems. -/

theorem playMoves_reachable :
    ∀ (ms : List Nat) (b b' : Board), Reachable b → playMoves b ms = some b' →
      Reachable b' := by
  intro ms
  induction ms with
  | nil =>
    intro b b' hr h
    rw [playMoves] at h
    exact (Option.some.inj h) ▸ hr
  | cons m rest ih =>
    intro b b' hr h
    rw [playMoves] at h
    by_cases hm : m ∈ get_available_actions b
    · rw [if_pos hm] at h
      exact ih _ _ (Reachable.step hr hm) h
    · rw [if_neg hm] at h
      exact absurd h (by simp)

/-- C1: the claim states that in each direction exactly the contiguous
opponent run terminated by the first mover-colored cell is flipped and that
nothing beyond that terminator changes.  On `C1board` the CPU legally plays
cell 0; the east scan meets opponent cell 1, terminator cell 2, but the code
keeps scanning and also flips cell 3, which lies beyond the terminator and
beyond which sits another mover piece at cell 4.  The code therefore violates
the claim (and its own comment describing the sandwich rule). -/
theorem claim_C1_flips_beyond_terminator :
    0 ∈ get_available_actions C1board ∧
    C1board.board.getD 1 0 = 1 ∧
    C1board.board.getD 2 0 = 2 ∧
    C1board.board.getD 3 0 = 1 ∧
    (C1board.ins 0 2).board.getD 1 0 = 2 ∧
    (C1board.ins 0 2).board.getD 3 0 = 2 := by decide

/-- C2: `check_game_state` returns 0 exactly when both action sets are
non-empty; when at least one is empty it returns 1 when the player strictly
leads on pieces, 2 when the CPU strictly leads, and 3 on equal counts. -/
theorem claim_C2_game_state_characterization (b : Board) :
    (check_game_state b = 0 ↔ get_player_actions b ≠ [] ∧ get_cpu_actions b ≠ []) ∧
    (get_player_actions b = [] ∨ get_cpu_actions b = [] →
      (check_game_state b = 1 ↔ (get_score b).2 < (get_score b).1) ∧
      (check_game_state b = 2 ↔ (get_score b).1 < (get_score b).2) ∧
      (check_game_state b = 3 ↔ (get_score b).1 = (get_score b).2)) := by
  simp only [check_game_state]
  by_cases hend : (get_cpu_actions b).length = 0 ∨ (get_player_actions b).length = 0
  · rw [if_pos hend]
    constructor
    · constructor
      · intro h
        split_ifs at h
      · intro ⟨hp, hc⟩
        exact absurd hend (by simp [List.length_eq_zero, hp, hc])
    · intro _
      split_ifs with h1 h2 <;> refine ⟨?_, ?_, ?_⟩ <;> constructor <;> intro <;> omega
  · rw [if_neg hend]
    push_neg at hend
    simp only [ne_eq, List.length_eq_zero] at hend
    refine ⟨⟨fun _ => ⟨hend.2, hend.1⟩, fun _ => rfl⟩, ?_⟩
    intro habs
    rcases habs with h | h
    · exact absurd h hend.2
    · exact absurd h hend.1

/-- Witness for C2: on the initial board the game is in progress, and with
the CPU action set emptied the equal 2-2 score gives a draw. -/
theorem claim_C2_game_state_witness :
    check_game_state (Board.new 8 8) = 0 ∧
    check_game_state { Board.new 8 8 with cpu_available_actions := [] } = 3 :=
  ⟨(claim_C2_game_state_characterization (Board.new 8 8)).1.mpr
      ⟨by decide, by decide⟩,
   (((claim_C2_game_state_characterization
      { Board.new 8 8 with cpu_available_actions := [] }).2
      (Or.inr rfl)).2.2).mpr (by decide)⟩

/-- C3: the claim states that `get_max_tile` returns the legal action
maximizing the CPU piece count after one ply, first in iteration order on
ties.  On `C3board` action 0 yields CPU score 6 and action 40 yields 4, yet
the code returns 40, because `best_score` is never updated inside the loop:
it returns the last action improving on the pre-move score, not the maximum
its own documentation promises. -/
theorem claim_C3_returns_last_not_max :
    0 ∈ get_available_actions C3board ∧
    40 ∈ get_available_actions C3board ∧
    (get_score (C3board.ins 0 2)).2 = 6 ∧
    (get_score (C3board.ins 40 2)).2 = 4 ∧
    get_max_tile C3board = 40 := by decide

/-- C4: the claim states every perimeter member of a reachable board is an
empty cell adjacent to an occupied cell.  `C4board` is reachable (seven
successful moves, final move at the column-7 cell 39), yet its perimeter
contains the empty cell 32 (row 4, column 0) none of whose true neighbors is
occupied: the perimeter update computed `39 - 7 = 32` without the row
overflow handling its own comment says is missing. -/
theorem claim_C4_perimeter_member_not_adjacent :
    Reachable C4board ∧
    32 ∈ C4board.perimeter ∧
    C4board.board.getD 32 0 = 0 ∧
    hasOccupiedNeighbor C4board 32 = false :=
  ⟨playMoves_reachable C4moves (Board.new 8 8) C4board Reachable.init (by decide),
   by decide, by decide, by decide⟩

/-- C6 counterexample: cell 18 touches the central 2x2 block only diagonally
(it is diagonally adjacent to block cell 27 and edge-adjacent to no block
cell) yet is a legal opening move for neither side, while the player's legal
move 19 is edge-adjacent to the block.  So the opening legal moves are not
"the four cells diagonally adjacent to the central 2x2 block". -/
theorem claim_C6_counterexample :
    diagAdjacent 18 27 = true ∧
    (centralBlock.all fun c => !edgeAdjacent 18 c) = true ∧
    18 ∉ (Board.new 8 8).player_available_actions ∧
    18 ∉ (Board.new 8 8).cpu_available_actions ∧
    19 ∈ (Board.new 8 8).player_available_actions ∧
    edgeAdjacent 19 27 = true := by decide

/-- C6 as amended: `Board.new 8 8` has score 2-2 and gives each side exactly
four legal moves, namely 26, 19, 37, 44 for the player and 29, 20, 34, 43 for
the CPU; every one of them is edge-adjacent (orthogonally adjacent) to the
central 2x2 block and diagonally adjacent to a piece of the mover's own
color. -/
theorem claim_C6_initial_board :
    get_score (Board.new 8 8) = (2, 2) ∧
    (Board.new 8 8).player_available_actions = [26, 19, 37, 44] ∧
    (Board.new 8 8).cpu_available_actions = [29, 20, 34, 43] ∧
    (Board.new 8 8).player_available_actions.length = 4 ∧
    (Board.new 8 8).cpu_available_actions.length = 4 ∧
    ((Board.new 8 8).player_available_actions.all fun m =>
      (centralBlock.any fun c => edgeAdjacent m c) &&
      ([28, 35].any fun c => diagAdjacent m c)) = true ∧
    ((Board.new 8 8).cpu_available_actions.all fun m =>
      (centralBlock.any fun c => edgeAdjacent m c) &&
      ([27, 36].any fun c => diagAdjacent m c)) = true := by decide

/-- C7: from any column-0 cell a single step west, north-west or south-west
leaves the board (no wrap to column 7), and from any column-7 cell a single
step east, north-east or south-east leaves the board. -/
theorem claim_C7_edge_no_wrap :
    ∀ pos < 64,
      (pos % 8 = 0 →
        get_new_pos 1 pos 1 64 = none ∧ get_new_pos 4 pos 1 64 = none ∧
        get_new_pos 6 pos 1 64 = none) ∧
      (pos % 8 = 7 →
        get_new_pos 0 pos 1 64 = none ∧ get_new_pos 5 pos 1 64 = none ∧
        get_new_pos 7 pos 1 64 = none) := by decide

/-- Witness for C7 at the column-0 cell 8 and the column-7 cell 15. -/
theorem claim_C7_edge_no_wrap_witness :
    get_new_pos 1 8 1 64 = none ∧ get_new_pos 0 15 1 64 = none :=
  ⟨((claim_C7_edge_no_wrap 8 (by decide)).1 (by decide)).1,
   ((claim_C7_edge_no_wrap 15 (by decide)).2 (by decide)).1⟩

theorem getD_set_eq_ite (l : List Nat) (i v m : Nat) :
    (l.set i v).getD m 0 = if i = m ∧ i < l.length then v else l.getD m 0 := by
  rw [List.getD_eq_getElem?_getD, List.getD_eq_getElem?_getD, List.getElem?_set]
  by_cases h1 : i = m
  · subst h1
    by_cases h2 : i < l.length
    · simp [h2]
    · simp only [if_pos rfl, if_neg h2, h2, and_false, if_false]
      rw [List.getElem?_eq_none (by omega)]
      rfl
  · simp [h1]

theorem getD_set_ne (l : List Nat) (i v m : Nat) (h : i ≠ m) :
    (l.set i v).getD m 0 = l.getD m 0 := by
  rw [getD_set_eq_ite]
  simp [h]

theorem getD_set_self (l : List Nat) (i v : Nat) (h : i < l.length) :
    (l.set i v).getD i 0 = v := by
  rw [getD_set_eq_ite]
  simp [h]

theorem countP_range_point (p q : Nat → Bool) (k n : Nat) (hk : k < n)
    (hsame : ∀ i, i ≠ k → p i = q i) (hp : p k = false) (hq : q k = true) :
    (List.range n).countP q = (List.range n).countP p + 1 := by
  induction n with
  | zero => omega
  | succ n ih =>
    rw [List.range_succ, List.countP_append, List.countP_append]
    by_cases hkn : k = n
    · subst hkn
      have hcongr : (List.range k).countP q = (List.range k).countP p := by
        apply List.countP_congr
        intro x hx
        rw [List.mem_range] at hx
        rw [hsame x (by omega)]
      simp [List.countP_cons, hp, hq, hcongr]
    · have hpq : p n = q n := hsame n (by omega)
      rw [ih (by omega)]
      simp only [List.countP_cons, List.countP_nil, hpq]
      omega

theorem countP_range_congr (p q : Nat → Bool) (n : Nat) (h : ∀ i < n, p i = q i) :
    (List.range n).countP p = (List.range n).countP q := by
  apply List.countP_congr
  intro x hx
  rw [List.mem_range] at hx
  rw [h x hx]

theorem countP_range_mono (p q : Nat → Bool) (n : Nat)
    (h : ∀ i < n, p i = true → q i = true) :
    (List.range n).countP p ≤ (List.range n).countP q := by
  apply List.countP_mono_left
  intro x hx
  rw [List.mem_range] at hx
  exact h x hx

theorem contains_iff_mem (l : List Nat) (x : Nat) : l.contains x = true ↔ x ∈ l := by
  simp [List.contains, List.elem_iff]

theorem mem_insertSet {l : List Nat} {x m : Nat} :
    m ∈ insertSet l x ↔ m ∈ l ∨ m = x := by
  unfold insertSet
  by_cases h : l.contains x
  · rw [if_pos h]
    constructor
    · exact Or.inl
    · rintro (hm | rfl)
      · exact hm
      · exact (contains_iff_mem l m).mp h
  · rw [if_neg h]
    simp [List.mem_append]

theorem nodup_insertSet {l : List Nat} (h : l.Nodup) (x : Nat) :
    (insertSet l x).Nodup := by
  unfold insertSet
  by_cases hc : l.contains x
  · rw [if_pos hc]; exact h
  · rw [if_neg hc]
    have hx : x ∉ l := fun hm => hc ((contains_iff_mem l x).mpr hm)
    refine List.Nodup.append h (List.nodup_singleton x) ?_
    intro a ha hax
    rw [List.mem_singleton] at hax
    exact hx (hax ▸ ha)

theorem indexOf_append_cons {l₁ l₂ : List Nat} {x : Nat} (hx : x ∉ l₁) :
    (l₁ ++ x :: l₂).indexOf x = l₁.length := by
  induction l₁ with
  | nil => simp [List.indexOf_cons_self]
  | cons a t ih =>
    have hax : a ≠ x := fun h => hx (by simp [h])
    have hx' : x ∉ t := fun hm => hx (List.mem_cons_of_mem a hm)
    simp only [List.cons_append, List.length_cons]
    rw [List.indexOf_cons_ne _ hax, ih hx']

theorem set_append_cons (l₁ l₂ : List Nat) (x v : Nat) :
    (l₁ ++ x :: l₂).set l₁.length v = l₁ ++ v :: l₂ := by
  induction l₁ with
  | nil => rfl
  | cons a t ih => simp only [List.cons_append, List.length_cons, List.set_cons_succ, ih]

theorem swapRemove_of_not_mem {l : List Nat} {x : Nat} (h : x ∉ l) :
    swapRemove l x = l := by
  unfold swapRemove
  rw [if_neg (fun hc => h ((contains_iff_mem l x).mp hc))]

theorem swapRemove_append_last {l₁ : List Nat} {x : Nat} (hx : x ∉ l₁) :
    swapRemove (l₁ ++ [x]) x = l₁ := by
  unfold swapRemove
  rw [if_pos ((contains_iff_mem _ x).mpr (by simp))]
  have h1 : (l₁ ++ [x]).indexOf x = l₁.length := indexOf_append_cons hx
  rw [h1, List.dropLast_concat]
  exact List.set_eq_of_length_le (le_refl _)

theorem swapRemove_append_mid {l₁ l₂ : List Nat} {x y : Nat} (hx : x ∉ l₁) :
    swapRemove (l₁ ++ x :: (l₂ ++ [y])) x = l₁ ++ y :: l₂ := by
  unfold swapRemove
  rw [if_pos ((contains_iff_mem _ x).mpr (by simp))]
  have h1 : (l₁ ++ x :: (l₂ ++ [y])).indexOf x = l₁.length := indexOf_append_cons hx
  have h2 : l₁ ++ x :: (l₂ ++ [y]) = (l₁ ++ x :: l₂) ++ [y] := by simp
  rw [h1, h2, List.getLastD_concat, List.dropLast_concat, set_append_cons]

theorem mem_swapRemove_iff {l : List Nat} {x m : Nat} (h : l.Nodup) :
    m ∈ swapRemove l x ↔ m ∈ l ∧ m ≠ x := by
  by_cases hx : x ∈ l
  · obtain ⟨l₁, l₂, rfl⟩ := List.append_of_mem hx
    have hnm := List.nodup_middle.mp h
    have hxout := (List.nodup_cons.mp hnm).1
    have hx1 : x ∉ l₁ := fun hm => hxout (by simp [hm])
    have hx2 : x ∉ l₂ := fun hm => hxout (by simp [hm])
    rcases List.eq_nil_or_concat l₂ with rfl | ⟨l₂', y, rfl⟩
    · rw [swapRemove_append_last hx1]
      constructor
      · intro hm
        exact ⟨by simp [hm], fun he => hx1 (he ▸ hm)⟩
      · rintro ⟨hm, hne⟩
        rcases List.mem_append.mp hm with h1 | h1
        · exact h1
        · rw [List.mem_singleton] at h1
          exact absurd h1 hne
    · simp only [List.concat_eq_append] at *
      have hxy : x ≠ y := fun he => hx2 (by simp [he])
      have hx2' : x ∉ l₂' := fun hm => hx2 (by simp [hm])
      rw [swapRemove_append_mid hx1]
      constructor
      · intro hm
        rcases List.mem_append.mp hm with h1 | h1
        · exact ⟨by simp [h1], fun he => hx1 (he ▸ h1)⟩
        · rcases List.mem_cons.mp h1 with rfl | h1
          · exact ⟨by simp, fun he => hxy he.symm⟩
          · exact ⟨by simp [h1], fun he => hx2' (he ▸ h1)⟩
      · rintro ⟨hm, hne⟩
        simp only [List.mem_append, List.mem_cons, List.mem_singleton,
          List.not_mem_nil, or_false] at hm
        rcases hm with h1 | h1 | h1 | h1
        · exact List.mem_append.mpr (Or.inl h1)
        · exact absurd h1 hne
        · exact List.mem_append.mpr (Or.inr (List.mem_cons_of_mem y h1))
        · subst h1
          exact List.mem_append.mpr (Or.inr (List.mem_cons_self _ _))
  · rw [swapRemove_of_not_mem hx]
    exact ⟨fun hm => ⟨hm, fun he => hx (he ▸ hm)⟩, fun hh => hh.1⟩

theorem nodup_swapRemove {l : List Nat} (h : l.Nodup) (x : Nat) :
    (swapRemove l x).Nodup := by
  by_cases hx : x ∈ l
  · obtain ⟨l₁, l₂, rfl⟩ := List.append_of_mem hx
    have hnm := List.nodup_middle.mp h
    have hcons := List.nodup_cons.mp hnm
    have hx1 : x ∉ l₁ := fun hm => hcons.1 (by simp [hm])
    rcases List.eq_nil_or_concat l₂ with rfl | ⟨l₂', y, rfl⟩
    · rw [swapRemove_append_last hx1]
      have := List.nodup_append.mp hcons.2
      exact this.1
    · simp only [List.concat_eq_append] at *
      rw [swapRemove_append_mid hx1]
      have hrest := List.nodup_append.mp hcons.2
      have hy := List.nodup_append.mp hrest.2.1
      apply List.nodup_middle.mpr
      apply List.nodup_cons.mpr
      constructor
      · intro hmem
        rcases List.mem_append.mp hmem with h1 | h1
        · exact hrest.2.2 h1 (by simp)
        · exact hy.2.2 h1 (by simp)
      · exact List.Nodup.append hrest.1 hy.1
          (fun a ha hb => hrest.2.2 ha (List.mem_append.mpr (Or.inl hb)))
  · rw [swapRemove_of_not_mem hx]
    exact h

theorem flip_span_nil (brd : List Nat) (val : Nat) : flip_span brd [] val = brd := rfl

theorem flip_span_cons (brd : List Nat) (t : Nat) (rest : List Nat) (val : Nat) :
    flip_span brd (t :: rest) val = flip_span (brd.set t val) rest val := rfl

theorem flip_span_length (tiles : List Nat) :
    ∀ (brd : List Nat) (val : Nat), (flip_span brd tiles val).length = brd.length := by
  induction tiles with
  | nil => intro brd val; rfl
  | cons t rest ih =>
    intro brd val
    rw [flip_span_cons, ih, List.length_set]

theorem flip_span_getD_cases (tiles : List Nat) :
    ∀ (brd : List Nat) (val m : Nat),
      (flip_span brd tiles val).getD m 0 = brd.getD m 0 ∨
      (flip_span brd tiles val).getD m 0 = val := by
  induction tiles with
  | nil => intro brd val m; left; rfl
  | cons t rest ih =>
    intro brd val m
    rw [flip_span_cons]
    rcases ih (brd.set t val) val m with h | h
    · rw [h, getD_set_eq_ite]
      by_cases hc : t = m ∧ t < brd.length
      · right; rw [if_pos hc]
      · left; rw [if_neg hc]
    · right; exact h

theorem flip_span_getD_not_mem (tiles : List Nat) :
    ∀ (brd : List Nat) (val m : Nat), m ∉ tiles →
      (flip_span brd tiles val).getD m 0 = brd.getD m 0 := by
  induction tiles with
  | nil => intro brd val m _; rfl
  | cons t rest ih =>
    intro brd val m hm
    rw [flip_span_cons, ih _ _ _ (fun h => hm (List.mem_cons_of_mem t h))]
    exact getD_set_ne brd t val m (fun h => hm (h ▸ List.mem_cons_self t rest))

theorem flip_span_zero_iff (tiles : List Nat) :
    ∀ (brd : List Nat) (val m : Nat), val ≠ 0 →
      (∀ t ∈ tiles, brd.getD t 0 ≠ 0) →
      ((flip_span brd tiles val).getD m 0 = 0 ↔ brd.getD m 0 = 0) := by
  induction tiles with
  | nil => intro brd val m _ _; exact Iff.rfl
  | cons t rest ih =>
    intro brd val m hval htl
    rw [flip_span_cons]
    have hstep : ∀ m', ((brd.set t val).getD m' 0 = 0 ↔ brd.getD m' 0 = 0) := by
      intro m'
      rw [getD_set_eq_ite]
      by_cases hc : t = m' ∧ t < brd.length
      · rw [if_pos hc]
        constructor
        · intro h; exact absurd h hval
        · intro h
          exact absurd (hc.1 ▸ h) (htl t (List.mem_cons_self t rest))
      · rw [if_neg hc]
    have hrest : ∀ t' ∈ rest, (brd.set t val).getD t' 0 ≠ 0 := by
      intro t' ht' h0
      exact htl t' (List.mem_cons_of_mem t ht') ((hstep t').mp h0)
    rw [ih (brd.set t val) val m hval hrest, hstep m]

theorem get_new_pos_ne_pos (dir pos iter size : Nat) (hiter : 1 ≤ iter) :
    ∀ np, get_new_pos dir pos iter size = some np → np ≠ pos := by
  intro np h
  rcases dir with _|_|_|_|_|_|_|_|d <;>
    simp only [get_new_pos] at h <;>
    (try split_ifs at h) <;>
    first
      | (exact Option.noConfusion h)
      | (injection h with h'; omega)

theorem flip_dir_length (pos val dir size : Nat) :
    ∀ (fuel : Nat) (brd : List Nat) (u : Nat) (tiles : List Nat),
      (flip_dir brd pos val dir size u tiles fuel).length = brd.length := by
  intro fuel
  induction fuel with
  | zero => intro brd u tiles; rfl
  | succ fuel ih =>
    intro brd u tiles
    rw [flip_dir]
    cases hnp : get_new_pos dir pos u size with
    | none => rfl
    | some np =>
      simp only [hnp]
      by_cases h1 : brd.getD np 0 ≠ val ∧ brd.getD np 0 ≠ 0
      · rw [if_pos h1]; exact ih ..
      · rw [if_neg h1]
        by_cases h2 : brd.getD np 0 = val
        · rw [if_pos h2, ih, flip_span_length]
        · rw [if_neg h2]

theorem flip_dir_zero_iff (pos val dir size : Nat) (hval : val ≠ 0) :
    ∀ (fuel : Nat) (brd : List Nat) (u : Nat) (tiles : List Nat),
      (∀ t ∈ tiles, brd.getD t 0 ≠ 0) →
      ∀ m, ((flip_dir brd pos val dir size u tiles fuel).getD m 0 = 0 ↔ brd.getD m 0 = 0) := by
  intro fuel
  induction fuel with
  | zero => intro brd u tiles _ m; exact Iff.rfl
  | succ fuel ih =>
    intro brd u tiles htl m
    rw [flip_dir]
    cases hnp : get_new_pos dir pos u size with
    | none => exact Iff.rfl
    | some np =>
      simp only [hnp]
      by_cases h1 : brd.getD np 0 ≠ val ∧ brd.getD np 0 ≠ 0
      · rw [if_pos h1]
        refine ih brd (u + 1) (tiles ++ [np]) ?_ m
        intro t ht
        rcases List.mem_append.mp ht with h | h
        · exact htl t h
        · rw [List.mem_singleton] at h
          exact h ▸ h1.2
      · rw [if_neg h1]
        by_cases h2 : brd.getD np 0 = val
        · rw [if_pos h2]
          have hspan := fun m' => flip_span_zero_iff tiles brd val m' hval htl
          have htl' : ∀ t ∈ tiles, (flip_span brd tiles val).getD t 0 ≠ 0 := by
            intro t ht h0
            exact htl t ht ((hspan t).mp h0)
          rw [ih (flip_span brd tiles val) (u + 1) tiles htl' m, hspan m]
        · rw [if_neg h2]

theorem flip_dir_getD_cases (pos val dir size : Nat) :
    ∀ (fuel : Nat) (brd : List Nat) (u : Nat) (tiles : List Nat) (m : Nat),
      (flip_dir brd pos val dir size u tiles fuel).getD m 0 = brd.getD m 0 ∨
      (flip_dir brd pos val dir size u tiles fuel).getD m 0 = val := by
  intro fuel
  induction fuel with
  | zero => intro brd u tiles m; left; rfl
  | succ fuel ih =>
    intro brd u tiles m
    rw [flip_dir]
    cases hnp : get_new_pos dir pos u size with
    | none => left; rfl
    | some np =>
      simp only [hnp]
      by_cases h1 : brd.getD np 0 ≠ val ∧ brd.getD np 0 ≠ 0
      · rw [if_pos h1]; exact ih ..
      · rw [if_neg h1]
        by_cases h2 : brd.getD np 0 = val
        · rw [if_pos h2]
          rcases ih (flip_span brd tiles val) (u + 1) tiles m with h | h
          · rcases flip_span_getD_cases tiles brd val m with h' | h'
            · left; rw [h, h']
            · right; rw [h, h']
          · right; exact h
        · rw [if_neg h2]; left; rfl

theorem flip_dir_getD_pos (pos val dir size : Nat) :
    ∀ (fuel : Nat) (brd : List Nat) (u : Nat) (tiles : List Nat),
      1 ≤ u → pos ∉ tiles →
      (flip_dir brd pos val dir size u tiles fuel).getD pos 0 = brd.getD pos 0 := by
  intro fuel
  induction fuel with
  | zero => intro brd u tiles _ _; rfl
  | succ fuel ih =>
    intro brd u tiles hu hpos
    rw [flip_dir]
    cases hnp : get_new_pos dir pos u size with
    | none => rfl
    | some np =>
      simp only [hnp]
      have hne : np ≠ pos := get_new_pos_ne_pos dir pos u size hu np hnp
      by_cases h1 : brd.getD np 0 ≠ val ∧ brd.getD np 0 ≠ 0
      · rw [if_pos h1]
        refine ih brd (u + 1) (tiles ++ [np]) (by omega) ?_
        intro hmem
        rcases List.mem_append.mp hmem with h | h
        · exact hpos h
        · rw [List.mem_singleton] at h
          exact hne h.symm
      · rw [if_neg h1]
        by_cases h2 : brd.getD np 0 = val
        · rw [if_pos h2, ih _ (u + 1) tiles (by omega) hpos,
            flip_span_getD_not_mem tiles brd val pos hpos]
        · rw [if_neg h2]

theorem foldl_preserve {β α : Type} (P : β → Prop) (f : β → α → β)
    (hf : ∀ s i, P s → P (f s i)) :
    ∀ (items : List α) (s : β), P s → P (items.foldl f s) := by
  intro items
  induction items with
  | nil => intro s h; exact h
  | cons i rest ih => intro s h; exact ih _ (hf s i h)

theorem insertSet_prop {P : Nat → Prop} {l : List Nat} {x : Nat}
    (hl : ∀ m ∈ l, P m) (hx : P x) : ∀ m ∈ insertSet l x, P m := by
  intro m hm
  rcases mem_insertSet.mp hm with h | h
  · exact hl m h
  · exact h ▸ hx

theorem ins_perimeter_spec (brd1 per : List Nat) (pos size : Nat)
    (hper : per.Nodup) (hpos : pos < size) :
    (ins_perimeter brd1 per pos size).Nodup ∧
    ∀ m ∈ ins_perimeter brd1 per pos size,
      (m ∈ per ∧ m ≠ pos) ∨ (m < size ∧ brd1.getD m 0 = 0) := by
  have hins : ∀ (l : List Nat) (x : Nat),
      (l.Nodup ∧ ∀ m ∈ l, (m ∈ per ∧ m ≠ pos) ∨ (m < size ∧ brd1.getD m 0 = 0)) →
      (x < size ∧ brd1.getD x 0 = 0) →
      ((insertSet l x).Nodup ∧
        ∀ m ∈ insertSet l x, (m ∈ per ∧ m ≠ pos) ∨ (m < size ∧ brd1.getD m 0 = 0)) :=
    fun l x hl hx => ⟨nodup_insertSet hl.1 x, insertSet_prop hl.2 (Or.inr hx)⟩
  have h0 : (swapRemove per pos).Nodup ∧
      ∀ m ∈ swapRemove per pos, (m ∈ per ∧ m ≠ pos) ∨ (m < size ∧ brd1.getD m 0 = 0) :=
    ⟨nodup_swapRemove hper pos, fun m hm => Or.inl ((mem_swapRemove_iff hper).mp hm)⟩
  have h1 : ∀ p, (p.Nodup ∧ ∀ m ∈ p, (m ∈ per ∧ m ≠ pos) ∨ (m < size ∧ brd1.getD m 0 = 0)) →
      ((ins_perimeter_above brd1 p pos).Nodup ∧
        ∀ m ∈ ins_perimeter_above brd1 p pos,
          (m ∈ per ∧ m ≠ pos) ∨ (m < size ∧ brd1.getD m 0 = 0)) := by
    intro p hp
    unfold ins_perimeter_above
    refine foldl_preserve
      (fun l : List Nat =>
        l.Nodup ∧ ∀ m ∈ l, (m ∈ per ∧ m ≠ pos) ∨ (m < size ∧ brd1.getD m 0 = 0))
      _ ?_ _ _ hp
    intro q i hq
    by_cases hg1 : pos < 9 - i
    · rw [if_pos hg1]; exact hq
    · rw [if_neg hg1]
      by_cases hg2 : brd1.getD (pos - (9 - i)) 0 = 0
      · rw [if_pos hg2]
        exact hins q _ hq ⟨by omega, hg2⟩
      · rw [if_neg hg2]; exact hq
  have h2 : ∀ p, (p.Nodup ∧ ∀ m ∈ p, (m ∈ per ∧ m ≠ pos) ∨ (m < size ∧ brd1.getD m 0 = 0)) →
      ((ins_perimeter_left brd1 p pos).Nodup ∧
        ∀ m ∈ ins_perimeter_left brd1 p pos,
          (m ∈ per ∧ m ≠ pos) ∨ (m < size ∧ brd1.getD m 0 = 0)) := by
    intro p hp
    unfold ins_perimeter_left
    by_cases hg1 : pos = 0
    · rw [if_pos hg1]; exact hp
    · rw [if_neg hg1]
      by_cases hg2 : brd1.getD (pos - 1) 0 = 0
      · rw [if_pos hg2]
        exact hins p _ hp ⟨by omega, hg2⟩
      · rw [if_neg hg2]; exact hp
  have h3 : ∀ p, (p.Nodup ∧ ∀ m ∈ p, (m ∈ per ∧ m ≠ pos) ∨ (m < size ∧ brd1.getD m 0 = 0)) →
      ((ins_perimeter_right brd1 p pos size).Nodup ∧
        ∀ m ∈ ins_perimeter_right brd1 p pos size,
          (m ∈ per ∧ m ≠ pos) ∨ (m < size ∧ brd1.getD m 0 = 0)) := by
    intro p hp
    unfold ins_perimeter_right
    by_cases hg1 : pos + 1 < size
    · rw [if_pos hg1]
      by_cases hg2 : brd1.getD (pos + 1) 0 = 0
      · rw [if_pos hg2]
        exact hins p _ hp ⟨hg1, hg2⟩
      · rw [if_neg hg2]; exact hp
    · rw [if_neg hg1]; exact hp
  have h4 : ∀ p, (p.Nodup ∧ ∀ m ∈ p, (m ∈ per ∧ m ≠ pos) ∨ (m < size ∧ brd1.getD m 0 = 0)) →
      ((ins_perimeter_below brd1 p pos size).Nodup ∧
        ∀ m ∈ ins_perimeter_below brd1 p pos size,
          (m ∈ per ∧ m ≠ pos) ∨ (m < size ∧ brd1.getD m 0 = 0)) := by
    intro p hp
    unfold ins_perimeter_below
    refine foldl_preserve
      (fun l : List Nat =>
        l.Nodup ∧ ∀ m ∈ l, (m ∈ per ∧ m ≠ pos) ∨ (m < size ∧ brd1.getD m 0 = 0))
      _ ?_ _ _ hp
    intro q i hq
    by_cases hg1 : pos + 9 - i < size
    · rw [if_pos hg1]
      by_cases hg2 : brd1.getD (pos + 9 - i) 0 = 0
      · rw [if_pos hg2]
        exact hins q _ hq ⟨hg1, hg2⟩
      · rw [if_neg hg2]; exact hq
    · rw [if_neg hg1]; exact hq
  exact h4 _ (h3 _ (h2 _ (h1 _ h0)))

theorem remove_action_frame (b : Board) (pos val : Nat) :
    (b.remove_action pos val).board = b.board ∧
    (b.remove_action pos val).perimeter = b.perimeter ∧
    (b.remove_action pos val).board_size = b.board_size ∧
    (b.remove_action pos val).player_turn = b.player_turn := by
  unfold Board.remove_action
  by_cases hv : val = 1 <;> simp [hv]

theorem insert_action_frame (b : Board) (pos val : Nat) :
    (b.insert_action pos val).board = b.board ∧
    (b.insert_action pos val).perimeter = b.perimeter ∧
    (b.insert_action pos val).board_size = b.board_size ∧
    (b.insert_action pos val).player_turn = b.player_turn := by
  unfold Board.insert_action
  by_cases hv : val = 1 <;> simp [hv]

theorem check_tile_go_frame (pos val : Nat) (dirs : List Nat) :
    ∀ b : Board,
      (b.check_tile_go pos val dirs).board = b.board ∧
      (b.check_tile_go pos val dirs).perimeter = b.perimeter ∧
      (b.check_tile_go pos val dirs).board_size = b.board_size ∧
      (b.check_tile_go pos val dirs).player_turn = b.player_turn := by
  induction dirs with
  | nil => intro b; exact ⟨rfl, rfl, rfl, rfl⟩
  | cons dir rest ih =>
    intro b
    rw [Board.check_tile_go]
    cases hd : check_tile_dir b.board pos val dir b.board_size 1 false 64 with
    | none => exact ih b
    | some tr =>
      cases tr with
      | true => exact insert_action_frame b pos val
      | false =>
        obtain ⟨e1, e2, e3, e4⟩ := ih (b.remove_action pos val)
        obtain ⟨f1, f2, f3, f4⟩ := remove_action_frame b pos val
        exact ⟨e1.trans f1, e2.trans f2, e3.trans f3, e4.trans f4⟩

theorem check_tile_go_sets (pos val : Nat) (dirs : List Nat) :
    ∀ b : Board,
      b.player_available_actions.Nodup → b.cpu_available_actions.Nodup →
      ((b.check_tile_go pos val dirs).player_available_actions.Nodup ∧
       (b.check_tile_go pos val dirs).cpu_available_actions.Nodup ∧
       (∀ m ∈ (b.check_tile_go pos val dirs).player_available_actions,
          m ∈ b.player_available_actions ∨ m = pos) ∧
       (∀ m ∈ (b.check_tile_go pos val dirs).cpu_available_actions,
          m ∈ b.cpu_available_actions ∨ m = pos)) := by
  induction dirs with
  | nil =>
    intro b hp hc
    exact ⟨hp, hc, fun m hm => Or.inl hm, fun m hm => Or.inl hm⟩
  | cons dir rest ih =>
    intro b hp hc
    rw [Board.check_tile_go]
    cases hd : check_tile_dir b.board pos val dir b.board_size 1 false 64 with
    | none => exact ih b hp hc
    | some tr =>
      cases tr with
      | true =>
        unfold Board.insert_action
        by_cases hv : val = 1
        · rw [if_pos hv]
          refine ⟨nodup_insertSet hp pos, hc, ?_, fun m hm => Or.inl hm⟩
          intro m hm
          exact mem_insertSet.mp hm
        · rw [if_neg hv]
          refine ⟨hp, nodup_insertSet hc pos, fun m hm => Or.inl hm, ?_⟩
          intro m hm
          exact mem_insertSet.mp hm
      | false =>
        have hrm : (b.remove_action pos val).player_available_actions.Nodup ∧
            (b.remove_action pos val).cpu_available_actions.Nodup ∧
            (∀ m ∈ (b.remove_action pos val).player_available_actions,
              m ∈ b.player_available_actions) ∧
            (∀ m ∈ (b.remove_action pos val).cpu_available_actions,
              m ∈ b.cpu_available_actions) := by
          unfold Board.remove_action
          by_cases hv : val = 1
          · rw [if_pos hv]
            exact ⟨nodup_swapRemove hp pos, hc,
              fun m hm => ((mem_swapRemove_iff hp).mp hm).1, fun m hm => hm⟩
          · rw [if_neg hv]
            exact ⟨hp, nodup_swapRemove hc pos,
              fun m hm => hm, fun m hm => ((mem_swapRemove_iff hc).mp hm).1⟩
        obtain ⟨g1, g2, g3, g4⟩ := ih (b.remove_action pos val) hrm.1 hrm.2.1
        refine ⟨g1, g2, ?_, ?_⟩
        · intro m hm
          rcases g3 m hm with h | h
          · exact Or.inl (hrm.2.2.1 m h)
          · exact Or.inr h
        · intro m hm
          rcases g4 m hm with h | h
          · exact Or.inl (hrm.2.2.2 m h)
          · exact Or.inr h

theorem check_tile_actions_frame (b : Board) (pos val : Nat) :
    (b.check_tile_actions pos val).board = b.board ∧
    (b.check_tile_actions pos val).perimeter = b.perimeter ∧
    (b.check_tile_actions pos val).board_size = b.board_size ∧
    (b.check_tile_actions pos val).player_turn = b.player_turn :=
  check_tile_go_frame pos val (List.range 8) b

theorem check_tile_actions_sets (b : Board) (pos val : Nat)
    (hp : b.player_available_actions.Nodup) (hc : b.cpu_available_actions.Nodup) :
    ((b.check_tile_actions pos val).player_available_actions.Nodup ∧
     (b.check_tile_actions pos val).cpu_available_actions.Nodup ∧
     (∀ m ∈ (b.check_tile_actions pos val).player_available_actions,
        m ∈ b.player_available_actions ∨ m = pos) ∧
     (∀ m ∈ (b.check_tile_actions pos val).cpu_available_actions,
        m ∈ b.cpu_available_actions ∨ m = pos)) :=
  check_tile_go_sets pos val (List.range 8) b hp hc

theorem cta_fold_spec (val : Nat) (tiles : List Nat) :
    ∀ b : Board,
      b.player_available_actions.Nodup → b.cpu_available_actions.Nodup →
      ((tiles.foldl (fun bb tile => bb.check_tile_actions tile val) b).board = b.board ∧
       (tiles.foldl (fun bb tile => bb.check_tile_actions tile val) b).perimeter = b.perimeter ∧
       (tiles.foldl (fun bb tile => bb.check_tile_actions tile val) b).board_size = b.board_size ∧
       (tiles.foldl (fun bb tile => bb.check_tile_actions tile val) b).player_turn = b.player_turn ∧
       (tiles.foldl (fun bb tile => bb.check_tile_actions tile val) b).player_available_actions.Nodup ∧
       (tiles.foldl (fun bb tile => bb.check_tile_actions tile val) b).cpu_available_actions.Nodup ∧
       (∀ m ∈ (tiles.foldl (fun bb tile => bb.check_tile_actions tile val) b).player_available_actions,
          m ∈ b.player_available_actions ∨ m ∈ tiles) ∧
       (∀ m ∈ (tiles.foldl (fun bb tile => bb.check_tile_actions tile val) b).cpu_available_actions,
          m ∈ b.cpu_available_actions ∨ m ∈ tiles)) := by
  induction tiles with
  | nil =>
    intro b hp hc
    exact ⟨rfl, rfl, rfl, rfl, hp, hc, fun m hm => Or.inl hm, fun m hm => Or.inl hm⟩
  | cons t rest ih =>
    intro b hp hc
    simp only [List.foldl_cons]
    obtain ⟨s1, s2, s3, s4⟩ := check_tile_actions_sets b t val hp hc
    obtain ⟨f1, f2, f3, f4⟩ := check_tile_actions_frame b t val
    obtain ⟨g1, g2, g3, g4, g5, g6, g7, g8⟩ := ih (b.check_tile_actions t val) s1 s2
    refine ⟨g1.trans f1, g2.trans f2, g3.trans f3, g4.trans f4, g5, g6, ?_, ?_⟩
    · intro m hm
      rcases g7 m hm with h | h
      · rcases s3 m h with h' | h'
        · exact Or.inl h'
        · exact Or.inr (h' ▸ List.mem_cons_self t rest)
      · exact Or.inr (List.mem_cons_of_mem t h)
    · intro m hm
      rcases g8 m hm with h | h
      · rcases s4 m h with h' | h'
        · exact Or.inl h'
        · exact Or.inr (h' ▸ List.mem_cons_self t rest)
      · exact Or.inr (List.mem_cons_of_mem t h)

theorem ins_actions_spec (b : Board)
    (hp : b.player_available_actions.Nodup) (hc : b.cpu_available_actions.Nodup) :
    ((ins_actions b).board = b.board ∧
     (ins_actions b).perimeter = b.perimeter ∧
     (ins_actions b).board_size = b.board_size ∧
     (ins_actions b).player_turn = b.player_turn ∧
     (ins_actions b).player_available_actions.Nodup ∧
     (ins_actions b).cpu_available_actions.Nodup ∧
     (∀ m ∈ (ins_actions b).player_available_actions,
        m ∈ b.player_available_actions ∨ m ∈ b.perimeter) ∧
     (∀ m ∈ (ins_actions b).cpu_available_actions,
        m ∈ b.cpu_available_actions ∨ m ∈ b.perimeter)) := by
  unfold ins_actions cta_pass
  obtain ⟨a1, a2, a3, a4, a5, a6, a7, a8⟩ := cta_fold_spec 1 b.perimeter b hp hc
  set b1 := b.perimeter.foldl (fun bb tile => bb.check_tile_actions tile 1) b with hb1
  obtain ⟨c1, c2, c3, c4, c5, c6, c7, c8⟩ := cta_fold_spec 2 b1.perimeter b1 a5 a6
  refine ⟨c1.trans a1, c2.trans a2, c3.trans a3, c4.trans a4, c5, c6, ?_, ?_⟩
  · intro m hm
    rcases c7 m hm with h | h
    · rcases a7 m h with h' | h'
      · exact Or.inl h'
      · exact Or.inr h'
    · exact Or.inr (a2 ▸ h)
  · intro m hm
    rcases c8 m hm with h | h
    · rcases a8 m h with h' | h'
      · exact Or.inl h'
      · exact Or.inr h'
    · exact Or.inr (a2 ▸ h)

theorem ins_flips_length (brd : List Nat) (pos val size : Nat) :
    (ins_flips brd pos val size).length = brd.length := by
  unfold ins_flips
  refine foldl_preserve (fun l : List Nat => l.length = brd.length)
    (fun bb dir => flip_dir bb pos val dir size 1 [] 64)
    (fun s i hs => (flip_dir_length pos val i size 64 s 1 []).trans hs)
    (List.range 8) (brd.set pos val) ?_
  exact List.length_set brd pos val

theorem ins_flips_zero_iff (brd : List Nat) (pos val size : Nat) (hval : val ≠ 0) :
    ∀ m, ((ins_flips brd pos val size).getD m 0 = 0 ↔ (brd.set pos val).getD m 0 = 0) := by
  unfold ins_flips
  refine foldl_preserve
    (fun l : List Nat => ∀ m, (l.getD m 0 = 0 ↔ (brd.set pos val).getD m 0 = 0))
    _ ?_ _ _ (fun _ => Iff.rfl)
  intro s i hs m
  rw [flip_dir_zero_iff pos val i size hval 64 s 1 []
    (fun t ht => absurd ht (List.not_mem_nil t)) m]
  exact hs m

theorem ins_flips_getD_pos (brd : List Nat) (pos val size : Nat) (hpos : pos < brd.length) :
    (ins_flips brd pos val size).getD pos 0 = val := by
  unfold ins_flips
  refine foldl_preserve (fun l : List Nat => l.getD pos 0 = val) _ ?_ _ _
    (getD_set_self brd pos val hpos)
  intro s i hs
  rw [flip_dir_getD_pos pos val i size 64 s 1 [] (le_refl 1) (List.not_mem_nil pos)]
  exact hs

theorem ins_flips_getD_cases (brd : List Nat) (pos val size : Nat) (m : Nat) :
    (ins_flips brd pos val size).getD m 0 = (brd.set pos val).getD m 0 ∨
    (ins_flips brd pos val size).getD m 0 = val := by
  unfold ins_flips
  refine foldl_preserve
    (fun l : List Nat => l.getD m 0 = (brd.set pos val).getD m 0 ∨ l.getD m 0 = val)
    _ ?_ _ _ (Or.inl rfl)
  intro s i hs
  rcases flip_dir_getD_cases pos val i size 64 s 1 [] m with h | h
  · rw [h]; exact hs
  · exact Or.inr h

theorem countP_partition (l : List Nat) (p q r : Nat → Bool)
    (h : ∀ x ∈ l, (r x = (p x || q x)) ∧ ¬(p x = true ∧ q x = true)) :
    l.countP p + l.countP q = l.countP r := by
  induction l with
  | nil => rfl
  | cons a t ih =>
    have ha := h a (List.mem_cons_self a t)
    have ht := ih (fun x hx => h x (List.mem_cons_of_mem a hx))
    rw [List.countP_cons, List.countP_cons, List.countP_cons, ← ht]
    have hr := ha.1
    cases hp : p a <;> cases hq : q a <;> rw [hp, hq] at hr
    · simp [hr, hp, hq]
    · simp [hr, hp, hq]; omega
    · simp [hr, hp, hq]; omega
    · exact absurd ⟨hp, hq⟩ ha.2

theorem score_sum_eq_occupied (b : Board) (h2 : ∀ i < 64, b.board.getD i 0 ≤ 2) :
    (get_score b).1 + (get_score b).2 = occupiedCount b := by
  unfold get_score occupiedCount
  have hh : ∀ x ∈ List.range 64,
      ((fun i => !(b.board.getD i 0 == 0)) x =
        ((fun i => b.board.getD i 0 == 1) x || (fun i => b.board.getD i 0 == 2) x)) ∧
      ¬((fun i => b.board.getD i 0 == 1) x = true ∧
        (fun i => b.board.getD i 0 == 2) x = true) := by
    intro x hx
    rw [List.mem_range] at hx
    have hv := h2 x hx
    have hcase : b.board.getD x 0 = 0 ∨ b.board.getD x 0 = 1 ∨ b.board.getD x 0 = 2 := by
      omega
    rcases hcase with h | h | h <;> simp only [h] <;> decide
  exact countP_partition (List.range 64) (fun i => b.board.getD i 0 == 1)
    (fun i => b.board.getD i 0 == 2) (fun i => !(b.board.getD i 0 == 0)) hh

theorem WF_mem_actions {b : Board} (hw : WF b) {pos : Nat}
    (hmem : pos ∈ get_available_actions b) :
    pos < 64 ∧ b.board.getD pos 0 = 0 := by
  obtain ⟨_, _, _, _, _, _, hply, hcpu, _⟩ := hw
  unfold get_available_actions at hmem
  cases ht : b.player_turn
  · rw [ht] at hmem
    exact hcpu pos hmem
  · rw [ht] at hmem
    exact hply pos hmem

theorem ins_of_not_contains {b : Board} {pos val : Nat}
    (h : (get_available_actions b).contains pos = false) :
    b.ins pos val = b := by
  unfold Board.ins
  rw [h]

theorem ins_of_contains {b : Board} {pos val : Nat}
    (h : (get_available_actions b).contains pos = true) :
    b.ins pos val =
      { ins_actions
          { b with
            board := ins_flips b.board pos val b.board_size
            perimeter := ins_perimeter (ins_flips b.board pos val b.board_size)
              b.perimeter pos b.board_size
            player_available_actions := swapRemove b.player_available_actions pos
            cpu_available_actions := swapRemove b.cpu_available_actions pos } with
        player_turn := !(ins_actions
          { b with
            board := ins_flips b.board pos val b.board_size
            perimeter := ins_perimeter (ins_flips b.board pos val b.board_size)
              b.perimeter pos b.board_size
            player_available_actions := swapRemove b.player_available_actions pos
            cpu_available_actions := swapRemove b.cpu_available_actions pos }).player_turn } := by
  unfold Board.ins
  rw [h]

theorem bang_beq_zero_congr {a c : Nat} (h : a = 0 ↔ c = 0) : (!(a == 0)) = (!(c == 0)) := by
  by_cases ha : a = 0
  · rw [ha, h.mp ha]
  · have hc : c ≠ 0 := fun h0 => ha (h.mpr h0)
    simp [ha, hc]

theorem occupied_board_point (brd : List Nat) (pos val : Nat) (hlen : brd.length = 64)
    (hpos : pos < 64) (hempty : brd.getD pos 0 = 0) (hval : val ≠ 0) :
    (List.range 64).countP (fun i => !((brd.set pos val).getD i 0 == 0)) =
    (List.range 64).countP (fun i => !(brd.getD i 0 == 0)) + 1 := by
  apply countP_range_point (fun i => !(brd.getD i 0 == 0))
    (fun i => !((brd.set pos val).getD i 0 == 0)) pos 64 hpos
  · intro i hi
    rw [getD_set_ne brd pos val i (Ne.symm hi)]
  · rw [hempty]; rfl
  · rw [getD_set_self brd pos val (by omega)]
    simp [hval]

theorem count2_set_point (brd : List Nat) (pos : Nat) (hlen : brd.length = 64)
    (hpos : pos < 64) (hempty : brd.getD pos 0 = 0) :
    (List.range 64).countP (fun i => ((brd.set pos 2).getD i 0 == 2)) =
    (List.range 64).countP (fun i => (brd.getD i 0 == 2)) + 1 := by
  apply countP_range_point (fun i => (brd.getD i 0 == 2))
    (fun i => ((brd.set pos 2).getD i 0 == 2)) pos 64 hpos
  · intro i hi
    rw [getD_set_ne brd pos 2 i (Ne.symm hi)]
  · rw [hempty]; rfl
  · rw [getD_set_self brd pos 2 (by omega)]; rfl

theorem count2_flips_mono (brd : List Nat) (pos size : Nat) :
    (List.range 64).countP (fun i => ((brd.set pos 2).getD i 0 == 2)) ≤
    (List.range 64).countP (fun i => ((ins_flips brd pos 2 size).getD i 0 == 2)) := by
  apply countP_range_mono
  intro i _ hp
  rcases ins_flips_getD_cases brd pos 2 size i with h | h
  · rw [h]; exact hp
  · rw [h]; rfl

theorem ins_spec {b : Board} {pos val : Nat} (hw : WF b)
    (hmem : pos ∈ get_available_actions b) (hval : val = 1 ∨ val = 2) :
    WF (b.ins pos val) ∧
    (b.ins pos val).player_turn = !b.player_turn ∧
    (b.ins pos val).board = ins_flips b.board pos val b.board_size ∧
    occupiedCount (b.ins pos val) = occupiedCount b + 1 := by
  obtain ⟨hpos, hempty⟩ := WF_mem_actions hw hmem
  obtain ⟨hlen, hsize, hle, hnp, hnc, hnper, hply, hcpu, hper⟩ := hw
  have hvalne : val ≠ 0 := by rcases hval with h | h <;> omega
  have hvalle : val ≤ 2 := by rcases hval with h | h <;> omega
  have hcont : (get_available_actions b).contains pos = true :=
    (contains_iff_mem _ pos).mpr hmem
  have hlen1 : (ins_flips b.board pos val b.board_size).length = 64 := by
    rw [ins_flips_length, hlen]
  have hzero1 : ∀ m,
      ((ins_flips b.board pos val b.board_size).getD m 0 = 0 ↔
        (m ≠ pos ∧ b.board.getD m 0 = 0)) := by
    intro m
    rw [ins_flips_zero_iff b.board pos val b.board_size hvalne m, getD_set_eq_ite]
    by_cases hc : pos = m ∧ pos < b.board.length
    · rw [if_pos hc]
      constructor
      · intro h; exact absurd h hvalne
      · rintro ⟨hne, _⟩; exact absurd hc.1.symm hne
    · rw [if_neg hc]
      have hne : pos ≠ m := fun he => hc ⟨he, by omega⟩
      exact ⟨fun h => ⟨Ne.symm hne, h⟩, fun h => h.2⟩
  have hle1 : ∀ i < 64, (ins_flips b.board pos val b.board_size).getD i 0 ≤ 2 := by
    intro i hi
    rcases ins_flips_getD_cases b.board pos val b.board_size i with h | h
    · rw [h, getD_set_eq_ite]
      split_ifs
      · exact hvalle
      · exact hle i hi
    · rw [h]; exact hvalle
  have hperim := ins_perimeter_spec (ins_flips b.board pos val b.board_size)
    b.perimeter pos b.board_size hnper (by omega)
  have hwb1 : WF { b with
      board := ins_flips b.board pos val b.board_size
      perimeter := ins_perimeter (ins_flips b.board pos val b.board_size)
        b.perimeter pos b.board_size
      player_available_actions := swapRemove b.player_available_actions pos
      cpu_available_actions := swapRemove b.cpu_available_actions pos } := by
    refine ⟨hlen1, hsize, hle1, nodup_swapRemove hnp pos, nodup_swapRemove hnc pos,
      hperim.1, ?_, ?_, ?_⟩
    · intro m hm
      obtain ⟨hmm, hmne⟩ := (mem_swapRemove_iff hnp).mp hm
      obtain ⟨h64, h0⟩ := hply m hmm
      exact ⟨h64, (hzero1 m).mpr ⟨hmne, h0⟩⟩
    · intro m hm
      obtain ⟨hmm, hmne⟩ := (mem_swapRemove_iff hnc).mp hm
      obtain ⟨h64, h0⟩ := hcpu m hmm
      exact ⟨h64, (hzero1 m).mpr ⟨hmne, h0⟩⟩
    · intro m hm
      rcases hperim.2 m hm with ⟨hmm, hmne⟩ | ⟨h64, h0⟩
      · obtain ⟨h64, h0⟩ := hper m hmm
        exact ⟨h64, (hzero1 m).mpr ⟨hmne, h0⟩⟩
      · exact ⟨by omega, h0⟩
  obtain ⟨hw1len, hw1size, hw1le, hw1np, hw1nc, hw1nper, hw1ply, hw1cpu, hw1per⟩ := hwb1
  obtain ⟨a1, a2, a3, a4, a5, a6, a7, a8⟩ := ins_actions_spec _ hw1np hw1nc
  rw [ins_of_contains hcont]
  refine ⟨⟨?_, ?_, ?_, a5, a6, ?_, ?_, ?_, ?_⟩, ?_, ?_, ?_⟩
  · show (ins_actions _).board.length = 64
    rw [a1]; exact hw1len
  · show (ins_actions _).board_size = 64
    rw [a3]; exact hw1size
  · show ∀ i < 64, (ins_actions _).board.getD i 0 ≤ 2
    rw [a1]; exact hw1le
  · show (ins_actions _).perimeter.Nodup
    rw [a2]; exact hw1nper
  · show ∀ m ∈ (ins_actions _).player_available_actions,
      m < 64 ∧ (ins_actions _).board.getD m 0 = 0
    intro m hm
    rw [a1]
    rcases a7 m hm with h | h
    · exact hw1ply m h
    · exact hw1per m h
  · show ∀ m ∈ (ins_actions _).cpu_available_actions,
      m < 64 ∧ (ins_actions _).board.getD m 0 = 0
    intro m hm
    rw [a1]
    rcases a8 m hm with h | h
    · exact hw1cpu m h
    · exact hw1per m h
  · show ∀ m ∈ (ins_actions _).perimeter,
      m < 64 ∧ (ins_actions _).board.getD m 0 = 0
    intro m hm
    rw [a1]
    exact hw1per m (a2 ▸ hm)
  · show (!(ins_actions _).player_turn) = !b.player_turn
    rw [a4]
  · show (ins_actions _).board = ins_flips b.board pos val b.board_size
    rw [a1]
  · show (List.range 64).countP (fun i => !((ins_actions _).board.getD i 0 == 0)) =
      occupiedCount b + 1
    rw [a1]
    show (List.range 64).countP
        (fun i => !((ins_flips b.board pos val b.board_size).getD i 0 == 0)) =
      occupiedCount b + 1
    rw [countP_range_congr
      (fun i => !((ins_flips b.board pos val b.board_size).getD i 0 == 0))
      (fun i => !((b.board.set pos val).getD i 0 == 0)) 64
      (fun i _ => bang_beq_zero_congr (ins_flips_zero_iff b.board pos val b.board_size hvalne i))]
    exact occupied_board_point b.board pos val hlen hpos hempty hvalne

theorem ins_count2 {b : Board} {pos : Nat} (hw : WF b)
    (hmem : pos ∈ get_available_actions b) :
    (get_score b).2 < (get_score (b.ins pos 2)).2 := by
  obtain ⟨hpos, hempty⟩ := WF_mem_actions hw hmem
  have hb := (ins_spec hw hmem (Or.inr rfl)).2.2.1
  obtain ⟨hlen, hsize, hrest⟩ := hw
  have e1 : (get_score (b.ins pos 2)).2 =
      (List.range 64).countP (fun i => ((b.ins pos 2).board.getD i 0 == 2)) := rfl
  have e2 : (get_score b).2 =
      (List.range 64).countP (fun i => (b.board.getD i 0 == 2)) := rfl
  rw [e1, e2, hb]
  have hmono := count2_flips_mono b.board pos b.board_size
  have hpoint := count2_set_point b.board pos hlen hpos hempty
  omega

theorem foldl_if_all_true {s : Nat → Nat} {c : Nat} :
    ∀ (l : List Nat), (∀ a ∈ l, c < s a) → l ≠ [] → ∀ (init : Nat),
      l.foldl (fun best a => if c < s a then a else best) init ∈ l := by
  intro l
  induction l with
  | nil => intro _ hne; exact absurd rfl hne
  | cons a rest ih =>
    intro h _ init
    simp only [List.foldl_cons]
    rw [if_pos (h a (List.mem_cons_self a rest))]
    by_cases hr : rest = []
    · subst hr
      exact List.mem_cons_self a []
    · exact List.mem_cons_of_mem a
        (ih (fun x hx => h x (List.mem_cons_of_mem a hx)) hr a)

theorem get_max_tile_mem {b : Board} (hw : WF b) (hturn : b.player_turn = false)
    (hne : b.cpu_available_actions ≠ []) :
    get_max_tile b ∈ b.cpu_available_actions := by
  have hga : get_available_actions b = b.cpu_available_actions := by
    unfold get_available_actions
    rw [hturn]
    rfl
  have hlen0 : ¬((get_available_actions b).length = 0) := by
    rw [hga]
    simpa using hne
  have hstep : ∀ a ∈ b.cpu_available_actions,
      (get_score b).2 < (get_score ((Board.clone b).ins a 2)).2 := by
    intro a ha
    have hcl : Board.clone b = b := rfl
    rw [hcl]
    exact ins_count2 hw (by rw [hga]; exact ha)
  have hgoal := foldl_if_all_true b.cpu_available_actions hstep hne 0
  simp only [get_max_tile, hga]
  rw [if_neg (by rw [hga] at hlen0; exact hlen0)]
  exact hgoal

theorem check_game_state_cases (b : Board) :
    check_game_state b = 0 ∨ check_game_state b = 1 ∨ check_game_state b = 2 ∨
    check_game_state b = 3 := by
  simp only [check_game_state]
  split_ifs <;> simp

theorem check_game_state_zero {b : Board} (h : check_game_state b = 0) :
    b.player_available_actions ≠ [] ∧ b.cpu_available_actions ≠ [] := by
  have hno : ¬((get_cpu_actions b).length = 0 ∨ (get_player_actions b).length = 0) := by
    intro hor
    simp only [check_game_state] at h
    rw [if_pos hor] at h
    split_ifs at h
  push_neg at hno
  simp only [ne_eq, List.length_eq_zero] at hno
  exact ⟨hno.2, hno.1⟩

theorem occupiedCount_le (b : Board) : occupiedCount b ≤ 64 := by
  unfold occupiedCount
  calc (List.range 64).countP (fun i => !(b.board.getD i 0 == 0)) ≤
      (List.range 64).length := List.countP_le_length _
    _ = 64 := List.length_range 64

theorem getD_mem {l : List Nat} {i : Nat} (h : i < l.length) : l.getD i 0 ∈ l := by
  rw [List.getD_eq_getElem?_getD, List.getElem?_eq_getElem h]
  exact List.getElem_mem h

theorem reachable_WF {b : Board} (h : Reachable b) : WF b := by
  induction h with
  | init => decide
  | @step b pos hr hm ih =>
    refine (ins_spec ih hm ?_).1
    cases hb : b.player_turn <;> simp [hb]

theorem random_playout_done {b : Board} {action : Nat} {diff : String} {rng : Nat → Nat}
    {fuel : Nat} {k : Nat} (hk : check_game_state b = k)
    (h13 : k = 1 ∨ k = 2 ∨ k = 3) (hdiff : diff = "1" ∨ diff = "2") :
    random_playout b action diff rng (fuel + 1) = k := by
  rcases hdiff with rfl | rfl <;>
    rcases h13 with rfl | rfl | rfl <;>
    simp only [random_playout, hk]

theorem random_playout_easy_cpu {b : Board} {action : Nat} {rng : Nat → Nat}
    {fuel : Nat} (h0 : check_game_state b = 0) (hturn : b.player_turn = false) :
    random_playout b action "1" rng (fuel + 1) =
    random_playout
      (b.ins ((get_cpu_actions b).getD (rng fuel % (get_cpu_actions b).length) 0) 2)
      action "1" rng fuel := by
  simp only [random_playout, h0, hturn, if_true]

theorem random_playout_hard_cpu {b : Board} {action : Nat} {rng : Nat → Nat}
    {fuel : Nat} (h0 : check_game_state b = 0) (hturn : b.player_turn = false) :
    random_playout b action "2" rng (fuel + 1) =
    (if get_max_tile b = 99 then random_playout b action "2" rng fuel
     else random_playout (b.ins (get_max_tile b) 2) action "2" rng fuel) := by
  simp only [random_playout, h0, hturn, if_true]

theorem random_playout_player {b : Board} {action : Nat} {diff : String}
    {rng : Nat → Nat} {fuel : Nat} (h0 : check_game_state b = 0)
    (hturn : b.player_turn = true) (hdiff : diff = "1" ∨ diff = "2") :
    random_playout b action diff rng (fuel + 1) =
    random_playout
      (b.ins ((get_player_actions b).getD (rng fuel % (get_player_actions b).length) 0) 1)
      action diff rng fuel := by
  rcases hdiff with rfl | rfl <;>
    (simp only [random_playout, h0, hturn]; rfl)

theorem random_playout_result {diff : String} (hdiff : diff = "1" ∨ diff = "2") :
    ∀ (fuel : Nat) (b : Board), WF b → 65 ≤ fuel + occupiedCount b →
      ∀ (action : Nat) (rng : Nat → Nat),
        random_playout b action diff rng fuel = 1 ∨
        random_playout b action diff rng fuel = 2 ∨
        random_playout b action diff rng fuel = 3 := by
  intro fuel
  induction fuel with
  | zero =>
    intro b _ hocc _ _
    have := occupiedCount_le b
    omega
  | succ fuel ih =>
    intro b hw hocc action rng
    rcases check_game_state_cases b with h0 | hk | hk | hk
    · obtain ⟨hpne, hcne⟩ := check_game_state_zero h0
      cases hturn : b.player_turn with
      | false =>
        rcases hdiff with hd | hd
        · subst hd
          rw [random_playout_easy_cpu h0 hturn]
          have hlt : rng fuel % (get_cpu_actions b).length < (get_cpu_actions b).length :=
            Nat.mod_lt _ (List.length_pos.mpr hcne)
          have hxmem :
              (get_cpu_actions b).getD (rng fuel % (get_cpu_actions b).length) 0 ∈
                get_available_actions b := by
            unfold get_available_actions
            rw [hturn]
            exact getD_mem hlt
          have hspec := ins_spec hw hxmem (Or.inr rfl)
          have hocc' := hspec.2.2.2
          exact ih _ hspec.1 (by omega) action rng
        · subst hd
          rw [random_playout_hard_cpu h0 hturn]
          have hmt := get_max_tile_mem hw hturn hcne
          have hw' := hw
          obtain ⟨-, -, -, -, -, -, -, hcpu, -⟩ := hw'
          have h64 : get_max_tile b < 64 := (hcpu _ hmt).1
          rw [if_neg (by omega)]
          have hxmem : get_max_tile b ∈ get_available_actions b := by
            unfold get_available_actions
            rw [hturn]
            exact hmt
          have hspec := ins_spec hw hxmem (Or.inr rfl)
          have hocc' := hspec.2.2.2
          exact ih _ hspec.1 (by omega) action rng
      | true =>
        rw [random_playout_player h0 hturn hdiff]
        have hlt : rng fuel % (get_player_actions b).length < (get_player_actions b).length :=
          Nat.mod_lt _ (List.length_pos.mpr hpne)
        have hxmem :
            (get_player_actions b).getD (rng fuel % (get_player_actions b).length) 0 ∈
              get_available_actions b := by
          unfold get_available_actions
          rw [hturn]
          exact getD_mem hlt
        have hspec := ins_spec hw hxmem (Or.inl rfl)
        have hocc' := hspec.2.2.2
        exact ih _ hspec.1 (by omega) action rng
    · rw [random_playout_done hk (Or.inl rfl) hdiff]
      exact Or.inl rfl
    · rw [random_playout_done hk (Or.inr (Or.inl rfl)) hdiff]
      exact Or.inr (Or.inl rfl)
    · rw [random_playout_done hk (Or.inr (Or.inr rfl)) hdiff]
      exact Or.inr (Or.inr rfl)

theorem bumpCount_ne_nil (acc : List (Nat × Nat)) (x : Nat) : bumpCount acc x ≠ [] := by
  cases acc with
  | nil => simp [bumpCount]
  | cons p rest =>
    obtain ⟨k, v⟩ := p
    simp only [bumpCount]
    split_ifs <;> simp

theorem foldl_bump_ne_nil : ∀ (l : List Nat) (acc : List (Nat × Nat)), acc ≠ [] →
    l.foldl bumpCount acc ≠ [] := by
  intro l
  induction l with
  | nil => intro acc h; exact h
  | cons x rest ih => intro acc _; exact ih (bumpCount acc x) (bumpCount_ne_nil acc x)

theorem freqList_ne_nil {l : List Nat} (h : l ≠ []) : freqList l ≠ [] := by
  cases l with
  | nil => exact absurd rfl h
  | cons x rest =>
    unfold freqList
    rw [List.foldl_cons]
    exact foldl_bump_ne_nil rest _ (bumpCount_ne_nil [] x)

theorem bumpCount_key_mem : ∀ (acc : List (Nat × Nat)) (x : Nat) (p : Nat × Nat),
    p ∈ bumpCount acc x → p.1 = x ∨ ∃ q ∈ acc, p.1 = q.1 := by
  intro acc
  induction acc with
  | nil =>
    intro x p hp
    simp only [bumpCount, List.mem_singleton] at hp
    left
    rw [hp]
  | cons q rest ih =>
    intro x p hp
    obtain ⟨k, v⟩ := q
    simp only [bumpCount] at hp
    by_cases hk : k = x
    · rw [if_pos hk] at hp
      rcases List.mem_cons.mp hp with rfl | hp'
      · left; exact hk
      · right; exact ⟨p, List.mem_cons_of_mem _ hp', rfl⟩
    · rw [if_neg hk] at hp
      rcases List.mem_cons.mp hp with rfl | hp'
      · right; exact ⟨(k, v), List.mem_cons_self _ _, rfl⟩
      · rcases ih x p hp' with h | ⟨q', hq', he⟩
        · left; exact h
        · right; exact ⟨q', List.mem_cons_of_mem _ hq', he⟩

theorem foldl_bump_key_mem : ∀ (l : List Nat) (acc : List (Nat × Nat)) (p : Nat × Nat),
    p ∈ l.foldl bumpCount acc → p.1 ∈ l ∨ ∃ q ∈ acc, p.1 = q.1 := by
  intro l
  induction l with
  | nil => intro acc p hp; right; exact ⟨p, hp, rfl⟩
  | cons x rest ih =>
    intro acc p hp
    rw [List.foldl_cons] at hp
    rcases ih (bumpCount acc x) p hp with h | ⟨q, hq, he⟩
    · left; exact List.mem_cons_of_mem x h
    · rcases bumpCount_key_mem acc x q hq with h | ⟨q', hq', he'⟩
      · left
        rw [he, h]
        exact List.mem_cons_self x rest
      · right; exact ⟨q', hq', he.trans he'⟩

theorem freqList_key_mem {l : List Nat} {p : Nat × Nat} (hp : p ∈ freqList l) :
    p.1 ∈ l := by
  rcases foldl_bump_key_mem l [] p hp with h | ⟨q, hq, _⟩
  · exact h
  · exact absurd hq (List.not_mem_nil q)

theorem maxByLast_fold_mem :
    ∀ (l : List (Nat × Nat)) (acc : Option (Nat × Nat)) (p : Nat × Nat),
      l.foldl
        (fun acc2 q =>
          match acc2 with
          | none => some q
          | some r => if r.2 ≤ q.2 then some q else some r) acc = some p →
      acc = some p ∨ p ∈ l := by
  intro l
  induction l with
  | nil => intro acc p h; left; exact h
  | cons q rest ih =>
    intro acc p h
    rw [List.foldl_cons] at h
    rcases ih _ p h with h' | h'
    · cases acc with
      | none =>
        right
        have hq : q = p := Option.some.inj h'
        rw [← hq]
        exact List.mem_cons_self q rest
      | some r =>
        simp only [] at h'
        by_cases hle : r.2 ≤ q.2
        · rw [if_pos hle] at h'
          right
          have hq : q = p := Option.some.inj h'
          rw [← hq]
          exact List.mem_cons_self q rest
        · rw [if_neg hle] at h'
          left; exact h'
    · right; exact List.mem_cons_of_mem q h'

theorem maxByLast_mem {l : List (Nat × Nat)} {p : Nat × Nat}
    (h : maxByLast l = some p) : p ∈ l := by
  rcases maxByLast_fold_mem l none p h with h' | h'
  · exact absurd h' (by simp)
  · exact h'

theorem maxByLast_fold_ne_none :
    ∀ (l : List (Nat × Nat)) (acc : Option (Nat × Nat)), (acc ≠ none ∨ l ≠ []) →
      l.foldl
        (fun acc2 q =>
          match acc2 with
          | none => some q
          | some r => if r.2 ≤ q.2 then some q else some r) acc ≠ none := by
  intro l
  induction l with
  | nil =>
    intro acc h
    rcases h with h | h
    · exact h
    · exact absurd rfl h
  | cons q rest ih =>
    intro acc _
    rw [List.foldl_cons]
    refine ih _ (Or.inl ?_)
    cases acc with
    | none => simp
    | some r =>
      simp only []
      split_ifs <;> simp

theorem maxByLast_ne_none {l : List (Nat × Nat)} (h : l ≠ []) : maxByLast l ≠ none :=
  maxByLast_fold_ne_none l none (Or.inr h)

theorem mcts_record_fst (b : Board) (diff : String) (rngi : Nat → Nat → Nat)
    (fuel : Nat) (st : List Nat × List Nat × List Nat) (act : Nat) :
    (mcts_record b diff rngi fuel st act).1 = st.1 ∨
    (mcts_record b diff rngi fuel st act).1 = st.1 ++ [act] := by
  unfold mcts_record
  rcases h : random_playout (Board.clone b) act diff (rngi act) fuel with _ | _ | _ | _ | n <;>
    simp

theorem foldl_preserve_mem {β α : Type} (P : β → Prop) (items : List α)
    (f : β → α → β) (hf : ∀ s i, i ∈ items → P s → P (f s i)) :
    ∀ s, P s → P (items.foldl f s) := by
  induction items with
  | nil => intro s h; exact h
  | cons i rest ih =>
    intro s h
    rw [List.foldl_cons]
    exact ih (fun s2 j hj h2 => hf s2 j (List.mem_cons_of_mem i hj) h2) _
      (hf s i (List.mem_cons_self i rest) h)

theorem mcts_stats_subset (b : Board) (max_steps : Nat) (diff : String)
    (rngs : Nat → Nat → Nat → Nat) (fuel : Nat) :
    ∀ m ∈ (mcts_stats b max_steps diff rngs fuel).1, m ∈ get_available_actions b := by
  unfold mcts_stats
  refine foldl_preserve
    (fun st : List Nat × List Nat × List Nat => ∀ m ∈ st.1, m ∈ get_available_actions b)
    _ ?_ _ _ (fun m hm => absurd hm (List.not_mem_nil m))
  intro st i hst
  refine foldl_preserve_mem
    (fun st2 : List Nat × List Nat × List Nat => ∀ m ∈ st2.1, m ∈ get_available_actions b)
    (get_available_actions b) _ ?_ _ hst
  intro st2 act hact hst2 m hm
  rcases mcts_record_fst b diff (rngs i) fuel st2 act with h | h
  · exact hst2 m (h ▸ hm)
  · rw [h] at hm
    rcases List.mem_append.mp hm with h' | h'
    · exact hst2 m h'
    · rw [List.mem_singleton] at h'
      exact h' ▸ hact

theorem cta_fold_frame (val : Nat) (tiles : List Nat) :
    ∀ b : Board,
      (tiles.foldl (fun bb tile => bb.check_tile_actions tile val) b).board = b.board ∧
      (tiles.foldl (fun bb tile => bb.check_tile_actions tile val) b).perimeter = b.perimeter ∧
      (tiles.foldl (fun bb tile => bb.check_tile_actions tile val) b).board_size = b.board_size ∧
      (tiles.foldl (fun bb tile => bb.check_tile_actions tile val) b).player_turn = b.player_turn := by
  induction tiles with
  | nil => intro b; exact ⟨rfl, rfl, rfl, rfl⟩
  | cons t rest ih =>
    intro b
    simp only [List.foldl_cons]
    obtain ⟨e1, e2, e3, e4⟩ := ih (b.check_tile_actions t val)
    obtain ⟨f1, f2, f3, f4⟩ := check_tile_actions_frame b t val
    exact ⟨e1.trans f1, e2.trans f2, e3.trans f3, e4.trans f4⟩

theorem ins_actions_frame (b : Board) :
    (ins_actions b).board = b.board ∧
    (ins_actions b).perimeter = b.perimeter ∧
    (ins_actions b).board_size = b.board_size ∧
    (ins_actions b).player_turn = b.player_turn := by
  unfold ins_actions cta_pass
  obtain ⟨a1, a2, a3, a4⟩ := cta_fold_frame 1 b.perimeter b
  obtain ⟨c1, c2, c3, c4⟩ := cta_fold_frame 2
    (b.perimeter.foldl (fun bb tile => bb.check_tile_actions tile 1) b).perimeter
    (b.perimeter.foldl (fun bb tile => bb.check_tile_actions tile 1) b)
  exact ⟨c1.trans a1, c2.trans a2, c3.trans a3, c4.trans a4⟩

theorem ins_board_eq {b : Board} {pos val : Nat}
    (hcont : (get_available_actions b).contains pos = true) :
    (b.ins pos val).board = ins_flips b.board pos val b.board_size := by
  rw [ins_of_contains hcont]
  exact (ins_actions_frame _).1

/-- C5: a move at a cell outside the moving side's available-action set
leaves the whole board state unchanged (the guard returns before any
mutation), while a legal move writes the mover's value at `pos` and toggles
the turn flag. -/
theorem claim_C5_illegal_move_noop (b : Board) (pos val : Nat) :
    (pos ∉ get_available_actions b → b.ins pos val = b) ∧
    (pos ∈ get_available_actions b → b.board.length = 64 → pos < 64 → val ≠ 0 →
      (b.ins pos val).board.getD pos 0 = val ∧
      (b.ins pos val).player_turn = !b.player_turn) := by
  constructor
  · intro h
    have hcf : (get_available_actions b).contains pos = false := by
      cases hc : (get_available_actions b).contains pos
      · rfl
      · exact absurd ((contains_iff_mem _ _).mp hc) h
    exact ins_of_not_contains hcf
  · intro hmem hlen hpos hval
    have hcont := (contains_iff_mem _ _).mpr hmem
    constructor
    · rw [ins_board_eq hcont]
      exact ins_flips_getD_pos b.board pos val b.board_size (by omega)
    · rw [ins_of_contains hcont]
      show (!(ins_actions _).player_turn) = !b.player_turn
      rw [(ins_actions_frame _).2.2.2]

/-- Witness for C5: on the initial board the illegal move 0 changes nothing,
and the legal player move 19 places a player piece at 19 and passes the turn
to the CPU. -/
theorem claim_C5_illegal_move_noop_witness :
    (Board.new 8 8).ins 0 1 = Board.new 8 8 ∧
    ((Board.new 8 8).ins 19 1).board.getD 19 0 = 1 ∧
    ((Board.new 8 8).ins 19 1).player_turn = !(Board.new 8 8).player_turn :=
  ⟨(claim_C5_illegal_move_noop (Board.new 8 8) 0 1).1 (by decide),
   ((claim_C5_illegal_move_noop (Board.new 8 8) 19 1).2 (by decide) (by decide)
      (by decide) (by decide)).1,
   ((claim_C5_illegal_move_noop (Board.new 8 8) 19 1).2 (by decide) (by decide)
      (by decide) (by decide)).2⟩

/-- C8: a legal move adds exactly one to the total number of occupied cells
as counted by `get_score`: the placed piece occupies a previously empty cell
and every flip recolors an already occupied cell. -/
theorem claim_C8_score_conservation (b : Board) (pos val : Nat)
    (hlen : b.board.length = 64) (hle : ∀ i < 64, b.board.getD i 0 ≤ 2)
    (hmem : pos ∈ get_available_actions b) (hempty : b.board.getD pos 0 = 0)
    (hpos : pos < 64) (hval : val = 1 ∨ val = 2) :
    (get_score (b.ins pos val)).1 + (get_score (b.ins pos val)).2 =
    (get_score b).1 + (get_score b).2 + 1 := by
  have hcont := (contains_iff_mem _ _).mpr hmem
  have hvalne : val ≠ 0 := by rcases hval with h | h <;> omega
  have hvalle : val ≤ 2 := by rcases hval with h | h <;> omega
  have hb := @ins_board_eq b pos val hcont
  have hle' : ∀ i < 64, (b.ins pos val).board.getD i 0 ≤ 2 := by
    intro i hi
    rw [hb]
    rcases ins_flips_getD_cases b.board pos val b.board_size i with h | h
    · rw [h, getD_set_eq_ite]
      split_ifs
      · exact hvalle
      · exact hle i hi
    · rw [h]
      exact hvalle
  have hocc : occupiedCount (b.ins pos val) = occupiedCount b + 1 := by
    unfold occupiedCount
    rw [countP_range_congr (fun i => !((b.ins pos val).board.getD i 0 == 0))
      (fun i => !((b.board.set pos val).getD i 0 == 0)) 64 ?_]
    · exact occupied_board_point b.board pos val hlen hpos hempty hvalne
    · intro i _
      refine bang_beq_zero_congr ?_
      rw [hb]
      exact ins_flips_zero_iff b.board pos val b.board_size hvalne i
  rw [score_sum_eq_occupied _ hle', score_sum_eq_occupied _ hle, hocc]

/-- Witness for C8: the opening player move at 19 takes the piece total from
4 to 5. -/
theorem claim_C8_score_conservation_witness :
    (get_score ((Board.new 8 8).ins 19 1)).1 + (get_score ((Board.new 8 8).ins 19 1)).2 =
    (get_score (Board.new 8 8)).1 + (get_score (Board.new 8 8)).2 + 1 :=
  claim_C8_score_conservation (Board.new 8 8) 19 1 (by decide) (by decide) (by decide)
    (by decide) (by decide) (Or.inl rfl)

/-- C9: on every board reachable by successful moves on which the game is
not over, `random_playout` with difficulty "1" or "2" reaches a terminal
outcome 1, 2 or 3 within the 65-step fuel bound (each loop iteration of the
source performs one successful move, so 65 iterations always suffice); in
particular the hard-difficulty retry branch never loops forever. -/
theorem claim_C9_random_playout_terminates (b : Board) (diff : String)
    (hr : Reachable b) (_h0 : check_game_state b = 0)
    (hdiff : diff = "1" ∨ diff = "2") (action : Nat) (rng : Nat → Nat)
    (fuel : Nat) (hfuel : 65 ≤ fuel) :
    random_playout b action diff rng fuel = 1 ∨
    random_playout b action diff rng fuel = 2 ∨
    random_playout b action diff rng fuel = 3 := by
  have hw := reachable_WF hr
  exact random_playout_result hdiff fuel b hw (by omega) action rng

/-- Witness for C9: a playout from the initial board with difficulty "1"
and the constant-zero index stream ends in a terminal outcome. -/
theorem claim_C9_random_playout_terminates_witness :
    random_playout (Board.new 8 8) 0 "1" (fun _ => 0) 65 = 1 ∨
    random_playout (Board.new 8 8) 0 "1" (fun _ => 0) 65 = 2 ∨
    random_playout (Board.new 8 8) 0 "1" (fun _ => 0) 65 = 3 :=
  claim_C9_random_playout_terminates (Board.new 8 8) "1" Reachable.init (by decide)
    (Or.inl rfl) 0 (fun _ => 0) 65 (by decide)

/-- C10: when it is the CPU's turn and the CPU has available actions,
`monte_carlo_tree_search` returns a member of the CPU's available-action
set, both on the most-frequent-win path and on the random fallback path. -/
theorem claim_C10_mcts_returns_available (b : Board) (max_steps : Nat) (diff : String)
    (rngs : Nat → Nat → Nat → Nat) (frand fuel : Nat)
    (hturn : b.player_turn = false) (hne : b.cpu_available_actions ≠ []) :
    monte_carlo_tree_search b max_steps diff rngs frand fuel ∈
      b.cpu_available_actions := by
  have hga : get_available_actions b = b.cpu_available_actions := by
    unfold get_available_actions
    rw [hturn]
    rfl
  simp only [monte_carlo_tree_search]
  by_cases hlen : (mcts_stats b max_steps diff rngs fuel).1.length = 0
  · rw [if_pos hlen, hga]
    exact getD_mem (Nat.mod_lt _ (List.length_pos.mpr hne))
  · rw [if_neg hlen]
    have hne1 : (mcts_stats b max_steps diff rngs fuel).1 ≠ [] := by
      intro h
      rw [h] at hlen
      exact hlen rfl
    obtain ⟨p, hp⟩ := Option.ne_none_iff_exists'.mp (maxByLast_ne_none (freqList_ne_nil hne1))
    rw [hp, Option.getD_some]
    have hkey := freqList_key_mem (maxByLast_mem hp)
    have hsub := mcts_stats_subset b max_steps diff rngs fuel p.1 hkey
    rw [hga] at hsub
    exact hsub

/-- Witness for C10: a one-round search on the initial board with the turn
given to the CPU returns one of the CPU's actions. -/
theorem claim_C10_mcts_returns_available_witness :
    monte_carlo_tree_search { Board.new 8 8 with player_turn := false } 1 "1"
      (fun _ _ _ => 0) 0 65 ∈
      ({ Board.new 8 8 with player_turn := false } : Board).cpu_available_actions :=
  claim_C10_mcts_returns_available { Board.new 8 8 with player_turn := false } 1 "1"
    (fun _ _ _ => 0) 0 65 rfl (by decide)
